import Mathlib

/-!
# ScanChinese_GO: extraction of Chinese string literals

A shallow embedding of `main.go`.  The program walks a directory tree, keeps the
files whose base name is configured, scans every line of those files with two
regular expressions and collects the matches without duplicates.

Conventions of the embedding:

* a Go string is the sequence of runes the `regexp` package decodes from it
  (`List Char`); the text is taken to be well-formed UTF-8, so that a substring
  by rune offsets is the substring by byte offsets;
* a `panic` is an `Except.error`;
* the file system is explicit: a `Disk` maps a path to the outcome of `os.Open`
  together with the outcomes of the successive `buf.ReadLine()` calls, and a
  directory walk is the list of the visits `filepath.Walk` makes.
-/

namespace ScanChinese

/-! ## The fragment of Go `regexp` used by the program -/

/-- The Han script range table of the Go standard library (`unicode.Han`,
Unicode 15.0.0), which `\p{Han}` denotes.  The table grows with the Unicode
version of the toolchain; the general results below use of it only that the
double quote and the line feed lie outside. -/
def isHan (c : Char) : Bool :=
  let r := c.toNat
  (0x2e80 ≤ r && r ≤ 0x2e99) || (0x2e9b ≤ r && r ≤ 0x2ef3) ||
  (0x2f00 ≤ r && r ≤ 0x2fd5) || r == 0x3005 || r == 0x3007 ||
  (0x3021 ≤ r && r ≤ 0x3029) || (0x3038 ≤ r && r ≤ 0x303b) ||
  (0x3400 ≤ r && r ≤ 0x4dbf) || (0x4e00 ≤ r && r ≤ 0x9fff) ||
  (0xf900 ≤ r && r ≤ 0xfa6d) || (0xfa70 ≤ r && r ≤ 0xfad9) ||
  (0x16fe2 ≤ r && r ≤ 0x16fe3) || (0x16ff0 ≤ r && r ≤ 0x16ff1) ||
  (0x20000 ≤ r && r ≤ 0x2a6df) || (0x2a700 ≤ r && r ≤ 0x2b739) ||
  (0x2b740 ≤ r && r ≤ 0x2b81d) || (0x2b820 ≤ r && r ≤ 0x2cea1) ||
  (0x2ceb0 ≤ r && r ≤ 0x2ebe0) || (0x2f800 ≤ r && r ≤ 0x2fa1d) ||
  (0x30000 ≤ r && r ≤ 0x3134a) || (0x31350 ≤ r && r ≤ 0x323af)

/-- The ASCII double quote, rune 34. -/
def dq : Char := Char.ofNat 34

/-- The line feed, rune 10. -/
def nl : Char := Char.ofNat 10

/-- The slash, rune 47. -/
def slash : Char := Char.ofNat 47

/-- The number sign, rune 35. -/
def hash : Char := Char.ofNat 35

/-- Single-rune classes occurring in the two patterns. -/
inductive CharClass where
  /-- a literal rune, here the double quote -/
  | lit (a : Char)
  /-- the dot: any rune except line feed (the flag `s` is not set) -/
  | anyNotNL
  /-- a negated set such as `[^/#]`; it does match line feed -/
  | negSet (cs : List Char)
  /-- the class `[\p{Han}]` -/
  | han

/-- Whether a rune belongs to a class. -/
def CharClass.test : CharClass → Char → Bool
  | .lit a, c => c == a
  | .anyNotNL, c => c != nl
  | .negSet cs, c => !(cs.contains c)
  | .han, c => isHan c

/-- A class with its (greedy) quantifier. -/
inductive Piece where
  | one (cc : CharClass)
  | star (cc : CharClass)
  | plus (cc : CharClass)

/-- Greedy repetition of a class followed by the continuation `k`: consume one
more rune when possible, fall back to the continuation otherwise.  The result is
the number of runes consumed. -/
def starGo (cc : CharClass) (k : List Char → Option Nat) : List Char → Option Nat
  | [] => k []
  | c :: s =>
    if cc.test c then
      match starGo cc k s with
      | some n => some (n + 1)
      | none => k (c :: s)
    else k (c :: s)

/-- Leftmost-first (backtracking order) match of a sequence of pieces at the
head of the input; the result is the length of the match. -/
def matchHere : List Piece → List Char → Option Nat
  | [], _ => some 0
  | .one cc :: ps, s =>
    match s with
    | [] => none
    | c :: s' => if cc.test c then (matchHere ps s').map (· + 1) else none
  | .star cc :: ps, s => starGo cc (matchHere ps) s
  | .plus cc :: ps, s =>
    match s with
    | [] => none
    | c :: s' => if cc.test c then (starGo cc (matchHere ps) s').map (· + 1) else none

/-- First start offset at which the pieces match, with the length of the match. -/
def findFrom (ps : List Piece) : List Char → Option (Nat × Nat)
  | [] => (matchHere ps []).map fun n => (0, n)
  | c :: s =>
    match matchHere ps (c :: s) with
    | some n => some (0, n)
    | none => (findFrom ps s).map fun m => (m.1 + 1, m.2)

/-- A compiled pattern: an optional leading `^` and a sequence of pieces. -/
structure Regexp where
  beginText : Bool
  pieces : List Piece

/-- One execution of the pattern on the rest `s` of the text; `atStart` tells
whether `s` is the whole text.  Returns start offset and length. -/
def Regexp.search (re : Regexp) (s : List Char) (atStart : Bool) : Option (Nat × Nat) :=
  if re.beginText then
    if atStart then (matchHere re.pieces s).map fun n => (0, n) else none
  else findFrom re.pieces s

/-- The method `(*Regexp).MatchString`. -/
def Regexp.MatchString (re : Regexp) (s : List Char) : Bool :=
  (re.search s true).isSome

/-- The loop of `(*Regexp).allMatches`: `n` matches are still wanted, `s` is the
text from `pos` on, `prevAdj` says that the previous match ended at `pos`.  An
empty match right after a previous match is skipped without being counted. -/
def allMatches (re : Regexp) : Nat → List Char → Bool → Bool → List (List Char)
  | 0, _, _, _ => []
  | n + 1, s, atStart, prevAdj =>
    match re.search s atStart with
    | none => []
    | some (st, len) =>
      if st + len = 0 then
        match prevAdj, s with
        | false, [] => [[]]
        | false, _ :: s' => [] :: allMatches re n s' false false
        | true, [] => []
        | true, _ :: s' =>
          match re.search s' false with
          | none => []
          | some (st2, len2) =>
            if st2 + len2 = 0 then
              match s' with
              | [] => [[]]
              | _ :: s'' => [] :: allMatches re n s'' false false
            else (s'.drop st2).take len2 :: allMatches re n (s'.drop (st2 + len2)) false true
      else (s.drop st).take len :: allMatches re n (s.drop (st + len)) false true

/-- The method `(*Regexp).FindAllString` for a count `n ≥ 0`. -/
def Regexp.FindAllString (re : Regexp) (s : List Char) (n : Nat) : List (List Char) :=
  allMatches re n s true false

/-! ## Global variables of the program -/

/-- The pattern `^[^/#]*".*[\p{Han}]+.*"`. -/
def zh_line_pattern : Regexp :=
  ⟨true, [.star (.negSet [slash, hash]), .one (.lit dq), .star .anyNotNL, .plus .han,
    .star .anyNotNL, .one (.lit dq)]⟩

/-- The pattern `".*[\p{Han}]+.*"`. -/
def zh_pattern : Regexp :=
  ⟨false, [.one (.lit dq), .star .anyNotNL, .plus .han, .star .anyNotNL, .one (.lit dq)]⟩

/-! ## Panics and the environment -/

/-- The value a `panic` carries: an error of the runtime or a message. -/
inductive Panic where
  | error (e : String)
  | message (m : String)
  deriving DecidableEq, Repr

/-- Outcome of one `buf.ReadLine()` call that does not report `io.EOF`: a line
without its terminator (or a fragment of a line longer than the buffer, the
flag `isPrefix` being discarded), or another error (with a nil line). -/
inductive ReadLineResult where
  | line (l : List Char)
  | failure (e : String)
  deriving DecidableEq, Repr

/-- The string `string(line)` the loop body works on. -/
def ReadLineResult.lineStr : ReadLineResult → List Char
  | .line l => l
  | .failure _ => []

/-- For each path the outcome of `os.Open`; an opened file is the list of the
`ReadLine` outcomes that precede `io.EOF`. -/
abbrev Disk := String → Except String (List ReadLineResult)

/-- The `os.FileInfo` fields the program reads. -/
structure FileInfo where
  Name : String
  IsDir : Bool
  deriving DecidableEq, Repr

/-- One call `filepath.Walk` makes to its callback. -/
structure WalkVisit where
  filename : String
  fi : FileInfo
  err : Option String
  deriving DecidableEq, Repr

/-! ## Functions of the program -/

/-- The callback passed to `filepath.Walk` in `getTargetFileList`. -/
def walkFn (TargetFileList : List String) (files : List String) (v : WalkVisit) :
    Except Panic (List String) :=
  match v.err with
  | some e => .error (.error e)
  | none =>
    if v.fi.IsDir then .ok files
    else .ok (TargetFileList.foldl
      (fun files value => if value = v.fi.Name then files ++ [v.filename] else files) files)

/-- The visits of the walk in order, threading the slice `files`. -/
def walkLoop (TargetFileList : List String) : List WalkVisit → List String →
    Except Panic (List String)
  | [], files => .ok files
  | v :: vs, files =>
    match walkFn TargetFileList files v with
    | .error e => .error e
    | .ok files' => walkLoop TargetFileList vs files'

/-- The function `getTargetFileList`, over the visits of the walk of `TargetPath`. -/
def getTargetFileList (TargetFileList : List String) (walk : List WalkVisit) :
    Except Panic (List String) :=
  walkLoop TargetFileList walk []

/-- The body of the read loop for one line: the per-line scan. -/
def scanLine (lineStr : List Char) : List (List Char) :=
  if zh_line_pattern.MatchString lineStr then zh_pattern.FindAllString lineStr 5 else []

/-- The read loop of `readEachFile`, threading `zhList`. -/
def readLoop (rs : List ReadLineResult) (zhList : List (List Char)) : List (List Char) :=
  rs.foldl (fun zhList r => zhList ++ scanLine r.lineStr) zhList

/-- The function `readEachFile`. -/
def readEachFile (disk : Disk) (filename : String) : Except Panic (List (List Char)) :=
  match disk filename with
  | .error e => .error (.error e)
  | .ok rs => .ok (readLoop rs [])

/-- The variables `chinese_list` and `chinese_map` of `extractChinese`; the map
is an association list. -/
structure Collected where
  chinese_list : List (List Char)
  chinese_map : List (List Char × Bool)

/-- The body of the inner loop of `extractChinese`. -/
def collect (st : Collected) (value : List Char) : Collected :=
  if (st.chinese_map.lookup value).isSome then st
  else ⟨st.chinese_list ++ [value], (value, true) :: st.chinese_map⟩

/-- The outer loop of `extractChinese`. -/
def extractLoop (disk : Disk) : List String → Collected → Except Panic Collected
  | [], st => .ok st
  | targetFile :: rest, st =>
    match readEachFile disk targetFile with
    | .error e => .error e
    | .ok zhList => extractLoop disk rest (zhList.foldl collect st)

/-- The function `extractChinese`. -/
def extractChinese (disk : Disk) (targetFileList : List String) :
    Except Panic (List (List Char)) :=
  match extractLoop disk targetFileList ⟨[], []⟩ with
  | .error e => .error e
  | .ok st => .ok st.chinese_list

/-- The function `writeToFile`: `create` is the outcome of `os.Create`, the
result is the content written to the output file.  The program discards the
result of `WriteString`; the writes are taken to succeed. -/
def writeToFile (create : Except String Unit) (chinese_list : List (List Char)) :
    Except Panic (List Char) :=
  match create with
  | .error e => .error (.error e)
  | .ok _ => .ok (chinese_list.foldl (fun out value => out ++ (value ++ [nl])) [])

/-! ## Configuration, driver and process -/

/-- The space, rune 32. -/
def space : Char := Char.ofNat 32

/-- The comma, rune 44. -/
def comma : Char := Char.ofNat 44

/-- The function `strings.Replace(s, old, new, n)` for a one-rune `old` and a
count `n ≥ 0`: the first `n` occurrences of `old` are replaced by `new`. -/
def Replace : List Char → Char → List Char → Nat → List Char
  | [], _, _, _ => []
  | c :: s, _, _, 0 => c :: s
  | c :: s, old, new, n + 1 =>
    if c = old then new ++ Replace s old new n else c :: Replace s old new (n + 1)

/-- The function `strings.Split(s, sep)` for a one-rune `sep`; the empty string
splits into one empty piece. -/
def Split : List Char → Char → List (List Char)
  | [], _ => [[]]
  | c :: s, sep =>
    if c = sep then [] :: Split s sep
    else
      match Split s sep with
      | [] => [[c]]
      | piece :: pieces => (c :: piece) :: pieces

/-- What `init` finds when it reads `config.ini`: a read error, a JSON error,
or the decoded map `content`. -/
inductive ConfigFile where
  | unreadable (e : String)
  | malformed (e : String)
  | content (m : String → Option String)

/-- The global variables `TargetPath` and `TargetFileList` once `init` is done. -/
structure Config where
  TargetPath : String
  TargetFileList : List String
  deriving DecidableEq, Repr

/-- The function `init`.  The length of a string is zero exactly when the
string is empty, in bytes as in runes. -/
def init (file : ConfigFile) : Except Panic Config :=
  match file with
  | .unreadable e => .error (.error e)
  | .malformed e => .error (.error e)
  | .content content =>
    match content "TargetPath" with
    | none => .error (.message "不存在名为TargetPath的配置或配置为空")
    | some TargetPath =>
      if TargetPath.length = 0 then .error (.message "不存在名为TargetPath的配置或配置为空")
      else
        match content "TargetFile" with
        | none => .error (.message "不存在名为TargetFile的配置或配置为空")
        | some targetFile =>
          if targetFile.length = 0 then
            .error (.message "不存在名为TargetFile的配置或配置为空")
          else
            .ok ⟨TargetPath,
              (Split (Replace targetFile.toList space [] 100) comma).map String.mk⟩

/-- What `fmt.Println` shows of a recovered panic value. -/
def Panic.text : Panic → String
  | .error e => e
  | .message m => m

/-- What a run of `main` leaves behind: the lines printed on standard output
and the content of `output.txt` when this run wrote it. -/
structure Effects where
  stdout : List String
  outputFile : Option (List Char)
  deriving DecidableEq, Repr

/-- The statements of `main` after the `defer`; a panic ends them.  `walkOf`
gives the visits of `filepath.Walk` for a root path. -/
def mainBody (cfg : Config) (walkOf : String → List WalkVisit) (disk : Disk)
    (create : Except String Unit) : Except Panic (List (List Char) × List Char) :=
  match getTargetFileList cfg.TargetFileList (walkOf cfg.TargetPath) with
  | .error p => .error p
  | .ok files =>
    if files.length = 0 then .error (.message "找不到指定的文件，请检查配置")
    else
      match extractChinese disk files with
      | .error p => .error p
      | .ok chinese_list =>
        match writeToFile create chinese_list with
        | .error p => .error p
        | .ok text => .ok (chinese_list, text)

/-- The function `main`: the deferred function recovers every panic of the
body and prints it, so `main` always returns. -/
def main (cfg : Config) (walkOf : String → List WalkVisit) (disk : Disk)
    (create : Except String Unit) : Effects :=
  match mainBody cfg walkOf disk create with
  | .error p => ⟨["There are some errors: " ++ p.text], none⟩
  | .ok (chinese_list, text) =>
    ⟨["提取完成，TotalCount: " ++ toString chinese_list.length], some text⟩

/-- The end of the process: its effects and its exit status. -/
structure Outcome where
  effects : Effects
  exitCode : Nat
  deriving DecidableEq, Repr

/-- The process: `init` runs before `main`.  A Go process ends with status 2 on
a panic that nothing recovers (the runtime reports it on standard error), and
with status 0 when `main` returns. -/
def run (file : ConfigFile) (walkOf : String → List WalkVisit) (disk : Disk)
    (create : Except String Unit) : Outcome :=
  match init file with
  | .error _ => ⟨⟨[], none⟩, 2⟩
  | .ok cfg => ⟨main cfg walkOf disk create, 0⟩

/-- The file of the lines `ls`, read without error. -/
def fileOfLines (ls : List (List Char)) : List ReadLineResult :=
  ls.map ReadLineResult.line

/-! ## Specification vocabulary -/

/-- The words a sequence of pieces denotes (the language of the pattern,
regardless of the order in which a matcher tries them). -/
def Matches : List Piece → List Char → Prop
  | [], w => w = []
  | .one cc :: ps, w => ∃ c w', w = c :: w' ∧ cc.test c = true ∧ Matches ps w'
  | .star cc :: ps, w =>
    ∃ x w', w = x ++ w' ∧ (∀ c ∈ x, cc.test c = true) ∧ Matches ps w'
  | .plus cc :: ps, w =>
    ∃ c x w', w = c :: (x ++ w') ∧ cc.test c = true ∧ (∀ d ∈ x, cc.test d = true) ∧
      Matches ps w'

/-- A string that begins with a double quote, ends with a double quote and
holds a Han rune. -/
def IsCandidate (c : List Char) : Prop :=
  c.head? = some dq ∧ c.getLast? = some dq ∧ ∃ h ∈ c, isHan h = true

/-- The pieces of `zh_pattern` after the Han class. -/
def closing : List Piece := [.star .anyNotNL, .one (.lit dq)]

/-- The pieces of `zh_pattern` from the Han class on. -/
def fromHan : List Piece := .plus .han :: closing

/-- The pieces of `zh_pattern` after the opening quote. -/
def afterQuote : List Piece := .star .anyNotNL :: fromHan

/-- The state of the collector after the candidates `seen` went through it. -/
def Collected.Inv (st : Collected) (seen : List (List Char)) : Prop :=
  (∀ v, (st.chinese_map.lookup v).isSome = true ↔ v ∈ st.chinese_list) ∧
  st.chinese_list.Nodup ∧ (∀ v, v ∈ st.chinese_list ↔ v ∈ seen) ∧
  st.chinese_list.Pairwise (fun a b => seen.indexOf a < seen.indexOf b)

/-- The concatenation of the per-file scan outputs, in the order of the files. -/
def scanOutputs (files : List (List ReadLineResult)) : List (List Char) :=
  files.flatMap fun f => readLoop f []

/-- The paths one visit contributes: none for a directory, and for a file one
copy of its path for every element of `TargetFileList` equal to its base name. -/
def selectedPaths (TargetFileList : List String) (v : WalkVisit) : List String :=
  if v.fi.IsDir then [] else List.replicate (TargetFileList.count v.fi.Name) v.filename

/-- The traversal restricted to the entries that are no directory and whose
base name is in `TargetFileList`, each listed once. -/
def restrictedWalk (TargetFileList : List String) (walk : List WalkVisit) : List String :=
  (walk.filter fun v => !v.fi.IsDir && decide (v.fi.Name ∈ TargetFileList)).map
    fun v => v.filename

/-- The text of one candidate per line, each followed by one line feed. -/
def rendered (chinese_list : List (List Char)) : List Char :=
  chinese_list.flatMap fun value => value ++ [nl]

/-- The decoded `config.ini` with the two keys `TargetPath` and `TargetFile`
and no other key. -/
def configOf (path file : String) : ConfigFile :=
  .content fun k =>
    if k = "TargetPath" then some path else if k = "TargetFile" then some file else none

/-! ## Soundness of the matcher -/

theorem starGo_sound (cc : CharClass) (k : List Char → Option Nat) :
    ∀ (s : List Char) (n : Nat), starGo cc k s = some n →
      ∃ x t m, s = x ++ t ∧ (∀ c ∈ x, cc.test c = true) ∧ k t = some m ∧
        n = x.length + m := by
  intro s
  induction s with
  | nil =>
    intro n h
    exact ⟨[], [], n, rfl, by simp, by simpa [starGo] using h, by simp⟩
  | cons c s ih =>
    intro n h
    unfold starGo at h
    by_cases hc : cc.test c = true
    · rw [if_pos hc] at h
      cases hs : starGo cc k s with
      | some m =>
        rw [hs] at h
        obtain ⟨x, t, m', hst, hx, hk, hm⟩ := ih m hs
        refine ⟨c :: x, t, m', by simp [hst], ?_, hk, ?_⟩
        · intro d hd
          rcases List.mem_cons.mp hd with rfl | hd
          · exact hc
          · exact hx d hd
        · have : m + 1 = n := by simpa using h
          simp only [List.length_cons]
          omega
      | none =>
        rw [hs] at h
        exact ⟨[], c :: s, n, rfl, by simp, h, by simp⟩
    · rw [if_neg hc] at h
      exact ⟨[], c :: s, n, rfl, by simp, h, by simp⟩

theorem matchHere_sound :
    ∀ (ps : List Piece) (s : List Char) (n : Nat), matchHere ps s = some n →
      ∃ w t, s = w ++ t ∧ w.length = n ∧ Matches ps w := by
  intro ps
  induction ps with
  | nil =>
    intro s n h
    refine ⟨[], s, rfl, ?_, by simp [Matches]⟩
    simpa [matchHere] using h
  | cons p ps ih =>
    intro s n h
    cases p with
    | one cc =>
      cases s with
      | nil => simp [matchHere] at h
      | cons c s =>
        by_cases hc : cc.test c = true
        · simp only [matchHere, if_pos hc, Option.map_eq_some'] at h
          obtain ⟨m, hm, rfl⟩ := h
          obtain ⟨w, t, rfl, hw, hM⟩ := ih s m hm
          exact ⟨c :: w, t, rfl, by simp [hw], c, w, rfl, hc, hM⟩
        · simp [matchHere, hc] at h
    | star cc =>
      simp only [matchHere] at h
      obtain ⟨x, t, m, rfl, hx, hk, rfl⟩ := starGo_sound cc _ s n h
      obtain ⟨w, t', rfl, hw, hM⟩ := ih t m hk
      exact ⟨x ++ w, t', by simp, by simp [hw], x, w, rfl, hx, hM⟩
    | plus cc =>
      cases s with
      | nil => simp [matchHere] at h
      | cons c s =>
        by_cases hc : cc.test c = true
        · simp only [matchHere, if_pos hc, Option.map_eq_some'] at h
          obtain ⟨m, hm, rfl⟩ := h
          obtain ⟨x, t, m', rfl, hx, hk, rfl⟩ := starGo_sound cc _ s m hm
          obtain ⟨w, t', rfl, hw, hM⟩ := ih t m' hk
          exact ⟨c :: (x ++ w), t', by simp, by simp [hw], c, x, w, rfl, hc, hx, hM⟩
        · simp [matchHere, hc] at h

theorem findFrom_sound (ps : List Piece) :
    ∀ (s : List Char) (st len : Nat), findFrom ps s = some (st, len) →
      st ≤ s.length ∧ matchHere ps (s.drop st) = some len := by
  intro s
  induction s with
  | nil =>
    intro st len h
    simp only [findFrom, Option.map_eq_some'] at h
    obtain ⟨n, hn, hp⟩ := h
    obtain ⟨rfl, rfl⟩ := Prod.mk.inj hp
    simpa using hn
  | cons c s ih =>
    intro st len h
    unfold findFrom at h
    cases hm : matchHere ps (c :: s) with
    | some n =>
      rw [hm] at h
      obtain ⟨rfl, rfl⟩ := Prod.mk.inj (Option.some.inj h)
      simpa using hm
    | none =>
      rw [hm] at h
      simp only [Option.map_eq_some'] at h
      obtain ⟨⟨i, l⟩, hf, hp⟩ := h
      obtain ⟨rfl, rfl⟩ := Prod.mk.inj hp
      obtain ⟨h1, h2⟩ := ih i l hf
      exact ⟨by simp; omega, by simpa using h2⟩

/-! ## Facts about the two patterns -/

theorem isHan_ne_dq {c : Char} (h : isHan c = true) : c ≠ dq := by
  rintro rfl
  revert h
  decide

theorem isHan_ne_nl {c : Char} (h : isHan c = true) : c ≠ nl := by
  rintro rfl
  revert h
  decide

theorem test_lit (a c : Char) : (CharClass.lit a).test c = true ↔ c = a := by
  simp [CharClass.test]

theorem test_any (c : Char) : CharClass.anyNotNL.test c = true ↔ c ≠ nl := by
  simp [CharClass.test]

theorem test_han (c : Char) : CharClass.han.test c = isHan c := rfl

theorem test_negSet (c : Char) :
    (CharClass.negSet [slash, hash]).test c = true ↔ c ≠ slash ∧ c ≠ hash := by
  simp [CharClass.test]

theorem zh_pattern_pieces : zh_pattern.pieces = .one (.lit dq) :: afterQuote := rfl

theorem zh_line_pattern_pieces :
    zh_line_pattern.pieces = .star (.negSet [slash, hash]) :: zh_pattern.pieces := rfl

theorem matches_closing {w : List Char} (h : Matches closing w) :
    ∃ z, w = z ++ [dq] ∧ nl ∉ z := by
  obtain ⟨z, w1, rfl, hz, c, w2, rfl, hc, hw2⟩ := h
  rw [test_lit] at hc
  subst hc
  have : w2 = [] := hw2
  subst this
  exact ⟨z, rfl, fun hmem => (test_any nl).mp (hz nl hmem) rfl⟩

theorem matches_fromHan {w : List Char} (h : Matches fromHan w) :
    ∃ c y, w = c :: (y ++ [dq]) ∧ isHan c = true ∧ nl ∉ y := by
  obtain ⟨c, x, w1, rfl, hc, hx, hw1⟩ := h
  obtain ⟨z, rfl, hz⟩ := matches_closing hw1
  refine ⟨c, x ++ z, by simp, hc, ?_⟩
  intro hmem
  rcases List.mem_append.mp hmem with h1 | h1
  · exact isHan_ne_nl ((test_han nl).symm.trans (hx nl h1)) rfl
  · exact hz h1

theorem matches_afterQuote {w : List Char} (h : Matches afterQuote w) :
    ∃ x c y, w = x ++ c :: (y ++ [dq]) ∧ isHan c = true ∧ nl ∉ x ∧ nl ∉ y := by
  obtain ⟨x, w1, rfl, hx, hw1⟩ := h
  obtain ⟨c, y, rfl, hc, hy⟩ := matches_fromHan hw1
  exact ⟨x, c, y, rfl, hc, fun hmem => (test_any nl).mp (hx nl hmem) rfl, hy⟩

/-- Every word of `zh_pattern` is a quote, a Han-bearing text without line
feed, and a quote. -/
theorem matches_zh_pattern {w : List Char} (h : Matches zh_pattern.pieces w) :
    ∃ x c y, w = dq :: (x ++ c :: (y ++ [dq])) ∧ isHan c = true ∧ nl ∉ x ∧ nl ∉ y := by
  obtain ⟨q, w1, rfl, hq, hw1⟩ := h
  rw [test_lit] at hq
  subst hq
  obtain ⟨x, c, y, rfl, hc, hx, hy⟩ := matches_afterQuote hw1
  exact ⟨x, c, y, rfl, hc, hx, hy⟩

theorem matches_zh_line_pattern {w : List Char} (h : Matches zh_line_pattern.pieces w) :
    ∃ p x c y, w = p ++ dq :: (x ++ c :: (y ++ [dq])) ∧ slash ∉ p ∧ hash ∉ p ∧
      isHan c = true ∧ nl ∉ x ∧ nl ∉ y := by
  obtain ⟨p, w1, rfl, hp, hw1⟩ := h
  obtain ⟨x, c, y, rfl, hc, hx, hy⟩ := matches_zh_pattern hw1
  refine ⟨p, x, c, y, rfl, ?_, ?_, hc, hx, hy⟩
  · intro hmem
    exact ((test_negSet slash).mp (hp slash hmem)).1 rfl
  · intro hmem
    exact ((test_negSet hash).mp (hp hash hmem)).2 rfl

theorem isCandidate_of_matches {w : List Char} (h : Matches zh_pattern.pieces w) :
    IsCandidate w := by
  obtain ⟨x, c, y, rfl, hc, -, -⟩ := matches_zh_pattern h
  refine ⟨rfl, ?_, c, by simp, hc⟩
  have : dq :: (x ++ c :: (y ++ [dq])) = (dq :: (x ++ c :: y)) ++ [dq] := by simp
  rw [this, List.getLast?_append]
  rfl

/-! ## The greedy match computed exactly -/

theorem dq_ne_nl : dq ≠ nl := by decide

theorem isHan_dq : isHan dq = false := by decide

theorem starGo_cons_some {cc : CharClass} {k : List Char → Option Nat} {c : Char}
    {s : List Char} {n : Nat} (hc : cc.test c = true) (hs : starGo cc k s = some n) :
    starGo cc k (c :: s) = some (n + 1) := by
  simp [starGo, hc, hs]

theorem starGo_cons_none {cc : CharClass} {k : List Char → Option Nat} {c : Char}
    {s : List Char} (hc : cc.test c = true) (hs : starGo cc k s = none) :
    starGo cc k (c :: s) = k (c :: s) := by
  simp [starGo, hc, hs]

theorem starGo_cons_neg {cc : CharClass} {k : List Char → Option Nat} {c : Char}
    {s : List Char} (hc : cc.test c = false) :
    starGo cc k (c :: s) = k (c :: s) := by
  simp [starGo, hc]

theorem matchHere_star (cc : CharClass) (ps : List Piece) (s : List Char) :
    matchHere (.star cc :: ps) s = starGo cc (matchHere ps) s := by
  rw [matchHere]

theorem matchHere_one_pos {cc : CharClass} {c : Char} (ps : List Piece) (s : List Char)
    (hc : cc.test c = true) :
    matchHere (.one cc :: ps) (c :: s) = (matchHere ps s).map (· + 1) := by
  rw [matchHere]
  simp [hc]

theorem matchHere_one_neg {cc : CharClass} {c : Char} (ps : List Piece) (s : List Char)
    (hc : cc.test c = false) : matchHere (.one cc :: ps) (c :: s) = none := by
  rw [matchHere]
  simp [hc]

theorem matchHere_plus_pos {cc : CharClass} {c : Char} (ps : List Piece) (s : List Char)
    (hc : cc.test c = true) :
    matchHere (.plus cc :: ps) (c :: s) = (starGo cc (matchHere ps) s).map (· + 1) := by
  rw [matchHere]
  simp [hc]

theorem matchHere_plus_neg {cc : CharClass} {c : Char} (ps : List Piece) (s : List Char)
    (hc : cc.test c = false) : matchHere (.plus cc :: ps) (c :: s) = none := by
  rw [matchHere]
  simp [hc]

theorem test_han_true {c : Char} (h : isHan c = true) : CharClass.han.test c = true := h

theorem test_han_false {c : Char} (h : isHan c = false) : CharClass.han.test c = false := h

theorem test_any_true {c : Char} (hc : c ≠ nl) : CharClass.anyNotNL.test c = true :=
  (test_any c).mpr hc

theorem matchHere_closing_none {s : List Char} (h : dq ∉ s) : matchHere closing s = none := by
  cases hm : matchHere closing s with
  | none => rfl
  | some n =>
    obtain ⟨w, t, rfl, -, hM⟩ := matchHere_sound _ _ _ hm
    obtain ⟨z, rfl, -⟩ := matches_closing hM
    exact absurd (by simp) h

theorem matchHere_fromHan_none {s : List Char} (h : dq ∉ s) : matchHere fromHan s = none := by
  cases hm : matchHere fromHan s with
  | none => rfl
  | some n =>
    obtain ⟨w, t, rfl, -, hM⟩ := matchHere_sound _ _ _ hm
    obtain ⟨c, y, rfl, -, -⟩ := matches_fromHan hM
    exact absurd (by simp) h

theorem matchHere_afterQuote_none {s : List Char} (h : dq ∉ s) :
    matchHere afterQuote s = none := by
  cases hm : matchHere afterQuote s with
  | none => rfl
  | some n =>
    obtain ⟨w, t, rfl, -, hM⟩ := matchHere_sound _ _ _ hm
    obtain ⟨x, c, y, rfl, -, -, -⟩ := matches_afterQuote hM
    exact absurd (by simp) h

theorem matchHere_fromHan_not_han (c : Char) (s : List Char) (hc : isHan c = false) :
    matchHere fromHan (c :: s) = none :=
  matchHere_plus_neg closing s (test_han_false hc)

theorem matchHere_quote (y : List Char) :
    matchHere [.one (.lit dq)] (dq :: y) = some 1 := by
  rw [matchHere_one_pos [] y ((test_lit dq dq).mpr rfl)]
  rfl

/-- After the Han run, `.*"` runs to the last quote. -/
theorem matchHere_closing_exact (x y : List Char) (hx : nl ∉ x) (hy : dq ∉ y) :
    matchHere closing (x ++ dq :: y) = some (x.length + 1) := by
  induction x with
  | nil =>
    have h0 : matchHere closing y = none := matchHere_closing_none hy
    rw [closing, matchHere_star] at h0 ⊢
    rw [List.nil_append, starGo_cons_none (test_any_true dq_ne_nl) h0, matchHere_quote]
    rfl
  | cons c x ih =>
    have hc : c ≠ nl := fun e => hx (by simp [e])
    have ih' := ih (fun e => hx (List.mem_cons_of_mem _ e))
    rw [closing, matchHere_star] at ih' ⊢
    rw [List.cons_append, starGo_cons_some (test_any_true hc) ih']
    rfl

/-- The Han run followed by `.*"` runs to the last quote. -/
theorem starGo_han_exact (x y : List Char) (hx : nl ∉ x) (hy : dq ∉ y) :
    starGo .han (matchHere closing) (x ++ dq :: y) = some (x.length + 1) := by
  induction x with
  | nil =>
    have h0 := matchHere_closing_exact [] y (by simp) hy
    rw [List.nil_append] at h0 ⊢
    rw [starGo_cons_neg (test_han_false isHan_dq), h0]
  | cons c x ih =>
    have ih' := ih (fun e => hx (List.mem_cons_of_mem _ e))
    have h0 := matchHere_closing_exact (c :: x) y hx hy
    rw [List.cons_append] at h0 ⊢
    cases hc : isHan c with
    | true =>
      rw [starGo_cons_some (test_han_true hc) ih']
      rfl
    | false =>
      rw [starGo_cons_neg (test_han_false hc), h0]

theorem matchHere_fromHan_exact (c : Char) (x y : List Char) (hc : isHan c = true)
    (hx : nl ∉ x) (hy : dq ∉ y) :
    matchHere fromHan (c :: (x ++ dq :: y)) = some (x.length + 2) := by
  rw [fromHan, matchHere_plus_pos closing _ (test_han_true hc),
    starGo_han_exact x y hx hy]
  rfl

/-- Without a Han rune before the last quote, `.*` finds no place to stop. -/
theorem matchHere_afterQuote_no_han (x y : List Char) (hx : ∀ c ∈ x, isHan c = false)
    (hy : dq ∉ y) : matchHere afterQuote (x ++ dq :: y) = none := by
  induction x with
  | nil =>
    have h0 : matchHere afterQuote y = none := matchHere_afterQuote_none hy
    rw [afterQuote, matchHere_star] at h0 ⊢
    rw [List.nil_append, starGo_cons_none (test_any_true dq_ne_nl) h0]
    exact matchHere_fromHan_not_han dq y isHan_dq
  | cons c x ih =>
    have ih' := ih (fun d hd => hx d (List.mem_cons_of_mem _ hd))
    have h1 := matchHere_fromHan_not_han c (x ++ dq :: y) (hx c (by simp))
    rw [afterQuote, matchHere_star] at ih' ⊢
    rw [List.cons_append]
    cases hc : CharClass.anyNotNL.test c with
    | true => rw [starGo_cons_none hc ih', h1]
    | false => rw [starGo_cons_neg hc, h1]

/-- The greedy `.*` before the Han class stops at the last Han rune that still
has a quote after it, and the match then runs to the last quote. -/
theorem matchHere_afterQuote_exact (x y : List Char) (hx : nl ∉ x)
    (hh : ∃ c ∈ x, isHan c = true) (hy : dq ∉ y) :
    matchHere afterQuote (x ++ dq :: y) = some (x.length + 1) := by
  induction x with
  | nil => simp at hh
  | cons c x ih =>
    have hc : c ≠ nl := fun e => hx (by simp [e])
    have hx' : nl ∉ x := fun e => hx (List.mem_cons_of_mem _ e)
    by_cases hx2 : ∃ d ∈ x, isHan d = true
    · have ih' := ih hx' hx2
      rw [afterQuote, matchHere_star] at ih' ⊢
      rw [List.cons_append, starGo_cons_some (test_any_true hc) ih']
      rfl
    · have hno : ∀ d ∈ x, isHan d = false := by
        intro d hd
        cases hdh : isHan d with
        | false => rfl
        | true => exact absurd ⟨d, hd, hdh⟩ hx2
      have hch : isHan c = true := by
        obtain ⟨d, hd, hdh⟩ := hh
        rcases List.mem_cons.mp hd with rfl | hd
        · exact hdh
        · exact absurd ⟨d, hd, hdh⟩ hx2
      have h0 := matchHere_afterQuote_no_han x y hno hy
      have h1 := matchHere_fromHan_exact c x y hch hx' hy
      rw [afterQuote, matchHere_star] at h0 ⊢
      rw [List.cons_append, starGo_cons_none (test_any_true hc) h0, h1]
      rfl

/-- At a quote that has a Han rune between it and the last quote of the text,
`zh_pattern` matches up to that last quote. -/
theorem matchHere_zh_pattern_exact (x y : List Char) (hx : nl ∉ x)
    (hh : ∃ c ∈ x, isHan c = true) (hy : dq ∉ y) :
    matchHere zh_pattern.pieces (dq :: (x ++ dq :: y)) = some (x.length + 2) := by
  rw [zh_pattern_pieces, matchHere_one_pos afterQuote _ ((test_lit dq dq).mpr rfl),
    matchHere_afterQuote_exact x y hx hh hy]
  rfl

theorem matchHere_zh_pattern_not_dq (c : Char) (s : List Char) (hc : c ≠ dq) :
    matchHere zh_pattern.pieces (c :: s) = none := by
  rw [zh_pattern_pieces]
  apply matchHere_one_neg
  simp [CharClass.test, hc]

theorem matchHere_zh_pattern_nil : matchHere zh_pattern.pieces [] = none := rfl

theorem matchHere_zh_pattern_pos {s : List Char} {n : Nat}
    (h : matchHere zh_pattern.pieces s = some n) : n ≠ 0 := by
  obtain ⟨w, t, rfl, rfl, hM⟩ := matchHere_sound _ _ _ h
  obtain ⟨x, c, y, rfl, -, -, -⟩ := matches_zh_pattern hM
  simp

/-! ## Searching and collecting the matches of `zh_pattern` -/

theorem search_zh_pattern (s : List Char) (atStart : Bool) :
    zh_pattern.search s atStart = findFrom zh_pattern.pieces s := by
  simp [Regexp.search, zh_pattern]

theorem matchString_zh_line_pattern (s : List Char) :
    zh_line_pattern.MatchString s = (matchHere zh_line_pattern.pieces s).isSome := by
  simp [Regexp.MatchString, Regexp.search, zh_line_pattern]

theorem findFrom_zh_none {s : List Char} (h : dq ∉ s) :
    findFrom zh_pattern.pieces s = none := by
  induction s with
  | nil => rfl
  | cons c s ih =>
    have hc : c ≠ dq := fun e => h (by simp [e])
    have ih' := ih (fun e => h (List.mem_cons_of_mem _ e))
    rw [findFrom, matchHere_zh_pattern_not_dq c s hc, ih']
    rfl

theorem findFrom_zh_skip (pre s : List Char) (hpre : dq ∉ pre) :
    findFrom zh_pattern.pieces (pre ++ s) =
      (findFrom zh_pattern.pieces s).map fun m => (m.1 + pre.length, m.2) := by
  induction pre with
  | nil => simp
  | cons c pre ih =>
    have hc : c ≠ dq := fun e => hpre (by simp [e])
    have ih' := ih (fun e => hpre (List.mem_cons_of_mem _ e))
    rw [List.cons_append, findFrom, matchHere_zh_pattern_not_dq c _ hc, ih']
    cases findFrom zh_pattern.pieces s with
    | none => rfl
    | some m => simp [Nat.add_assoc]

theorem findFrom_zh_exact (pre mid post : List Char) (hpre : dq ∉ pre) (hmid : nl ∉ mid)
    (hh : ∃ c ∈ mid, isHan c = true) (hpost : dq ∉ post) :
    findFrom zh_pattern.pieces (pre ++ dq :: (mid ++ dq :: post)) =
      some (pre.length, mid.length + 2) := by
  rw [findFrom_zh_skip _ _ hpre, findFrom, matchHere_zh_pattern_exact mid post hmid hh hpost]
  simp

theorem allMatches_zh_none (n : Nat) (s : List Char) (a b : Bool)
    (h : findFrom zh_pattern.pieces s = none) : allMatches zh_pattern n s a b = [] := by
  cases n with
  | zero => rfl
  | succ n => simp only [allMatches, search_zh_pattern, h]

theorem allMatches_zh_step (n : Nat) (s : List Char) (a b : Bool) (st len : Nat)
    (h : findFrom zh_pattern.pieces s = some (st, len)) :
    allMatches zh_pattern (n + 1) s a b =
      (s.drop st).take len :: allMatches zh_pattern n (s.drop (st + len)) false true := by
  have hlen : len ≠ 0 := matchHere_zh_pattern_pos (findFrom_sound _ _ _ _ h).2
  have hne : ¬ (st + len = 0) := by omega
  simp only [allMatches, search_zh_pattern, h, hne, if_false]

/-- Every string `zh_pattern` delivers is a word of the pattern. -/
theorem allMatches_zh_matches :
    ∀ (n : Nat) (s : List Char) (a b : Bool), ∀ c ∈ allMatches zh_pattern n s a b,
      Matches zh_pattern.pieces c := by
  intro n
  induction n with
  | zero =>
    intro s a b c hc
    simp [allMatches] at hc
  | succ n ih =>
    intro s a b c hc
    cases hf : findFrom zh_pattern.pieces s with
    | none =>
      rw [allMatches_zh_none _ _ _ _ hf] at hc
      simp at hc
    | some m =>
      obtain ⟨st, len⟩ := m
      rw [allMatches_zh_step n s a b st len hf] at hc
      rcases List.mem_cons.mp hc with rfl | hc
      · obtain ⟨-, hm⟩ := findFrom_sound _ _ _ _ hf
        obtain ⟨w, t, hwt, hw, hM⟩ := matchHere_sound _ _ _ hm
        rw [hwt, ← hw, List.take_left]
        exact hM
      · exact ih _ _ _ c hc

/-- The matches of `zh_pattern` in a text whose first quote is followed by a
Han rune before its last quote: one match, from the first quote to the last. -/
theorem findAllString_exact (n : Nat) (pre mid post : List Char) (hpre : dq ∉ pre)
    (hmid : nl ∉ mid) (hh : ∃ c ∈ mid, isHan c = true) (hpost : dq ∉ post) :
    zh_pattern.FindAllString (pre ++ dq :: (mid ++ dq :: post)) (n + 1) =
      [dq :: (mid ++ [dq])] := by
  have hf := findFrom_zh_exact pre mid post hpre hmid hh hpost
  rw [Regexp.FindAllString, allMatches_zh_step _ _ _ _ _ _ hf]
  have h1 : List.drop (pre.length + (mid.length + 2)) (pre ++ dq :: (mid ++ dq :: post))
      = post := by
    have : pre ++ dq :: (mid ++ dq :: post) = (pre ++ dq :: (mid ++ [dq])) ++ post := by simp
    rw [this]
    apply List.drop_left'
    simp
  have h2 : List.take (mid.length + 2) (List.drop pre.length
      (pre ++ dq :: (mid ++ dq :: post))) = dq :: (mid ++ [dq]) := by
    rw [List.drop_left]
    have : dq :: (mid ++ dq :: post) = (dq :: (mid ++ [dq])) ++ post := by simp
    rw [this]
    apply List.take_left'
    simp
  rw [h1, h2, allMatches_zh_none _ _ _ _ (findFrom_zh_none hpost)]

theorem starGo_isSome_append (cc : CharClass) (k : List Char → Option Nat)
    (x s : List Char) (hx : ∀ c ∈ x, cc.test c = true) (hk : (k s).isSome = true) :
    (starGo cc k (x ++ s)).isSome = true := by
  induction x with
  | nil =>
    obtain ⟨m, hm⟩ := Option.isSome_iff_exists.mp hk
    cases s with
    | nil => simpa [starGo] using hk
    | cons c s =>
      rw [List.nil_append]
      cases hc : cc.test c with
      | false => rw [starGo_cons_neg hc]; exact hk
      | true =>
        cases hs : starGo cc k s with
        | none => rw [starGo_cons_none hc hs]; exact hk
        | some j => rw [starGo_cons_some hc hs]; rfl
  | cons c x ih =>
    have ih' := ih (fun d hd => hx d (List.mem_cons_of_mem _ hd))
    obtain ⟨j, hj⟩ := Option.isSome_iff_exists.mp ih'
    rw [List.cons_append, starGo_cons_some (hx c (by simp)) hj]
    rfl

/-- The line filter accepts a text whose first quote is preceded by no slash
and no number sign and followed by a Han rune before the last quote. -/
theorem matchString_line_exact (pre mid post : List Char) (hs : slash ∉ pre)
    (hn : hash ∉ pre) (hmid : nl ∉ mid) (hh : ∃ c ∈ mid, isHan c = true)
    (hpost : dq ∉ post) :
    zh_line_pattern.MatchString (pre ++ dq :: (mid ++ dq :: post)) = true := by
  rw [matchString_zh_line_pattern, zh_line_pattern_pieces, matchHere_star]
  apply starGo_isSome_append
  · intro c hc
    rw [test_negSet]
    exact ⟨fun e => hs (e ▸ hc), fun e => hn (e ▸ hc)⟩
  · rw [matchHere_zh_pattern_exact mid post hmid hh hpost]
    rfl

/-- The per-line scan of a text as in `findAllString_exact`. -/
theorem scanLine_exact (pre mid post : List Char) (hq : dq ∉ pre) (hs : slash ∉ pre)
    (hn : hash ∉ pre) (hmid : nl ∉ mid) (hh : ∃ c ∈ mid, isHan c = true)
    (hpost : dq ∉ post) :
    scanLine (pre ++ dq :: (mid ++ dq :: post)) = [dq :: (mid ++ [dq])] := by
  rw [scanLine, matchString_line_exact pre mid post hs hn hmid hh hpost, if_pos rfl]
  exact findAllString_exact 4 pre mid post hq hmid hh hpost

theorem scanLine_matches {line c : List Char} (h : c ∈ scanLine line) :
    Matches zh_pattern.pieces c := by
  unfold scanLine at h
  split at h
  · exact allMatches_zh_matches _ _ _ _ c h
  · simp at h

theorem scanLine_of_not_match {line : List Char}
    (h : matchHere zh_line_pattern.pieces line = none) : scanLine line = [] := by
  rw [scanLine, matchString_zh_line_pattern, h]
  rfl

/-! ## The collector -/

theorem indexOf_append_mem {α : Type} [BEq α] [LawfulBEq α] {a : α} {l₁ : List α}
    (l₂ : List α) (h : a ∈ l₁) : (l₁ ++ l₂).indexOf a = l₁.indexOf a := by
  induction l₁ with
  | nil => simp at h
  | cons x l₁ ih =>
    rw [List.cons_append, List.indexOf_cons, List.indexOf_cons]
    by_cases hx : x = a
    · simp [hx]
    · have hxa : (x == a) = false := by simpa using hx
      have ha : a ∈ l₁ := by
        rcases List.mem_cons.mp h with e | e
        · exact absurd e.symm hx
        · exact e
      simp [hxa, ih ha]

theorem indexOf_append_not_mem {α : Type} [BEq α] [LawfulBEq α] {a : α} {l₁ : List α}
    (l₂ : List α) (h : a ∉ l₁) : (l₁ ++ l₂).indexOf a = l₁.length + l₂.indexOf a := by
  induction l₁ with
  | nil => simp
  | cons x l₁ ih =>
    have hx : x ≠ a := fun e => h (by simp [e])
    have hxa : (x == a) = false := by simpa using hx
    have ha : a ∉ l₁ := fun e => h (List.mem_cons_of_mem _ e)
    rw [List.cons_append, List.indexOf_cons]
    simp [hxa, ih ha]
    omega

theorem indexOf_lt_length_of_mem {α : Type} [BEq α] [LawfulBEq α] {a : α} {l : List α}
    (h : a ∈ l) : l.indexOf a < l.length := by
  induction l with
  | nil => simp at h
  | cons x l ih =>
    rw [List.indexOf_cons]
    by_cases hx : x = a
    · simp [hx]
    · have hxa : (x == a) = false := by simpa using hx
      have ha : a ∈ l := by
        rcases List.mem_cons.mp h with e | e
        · exact absurd e.symm hx
        · exact e
      simp [hxa, ih ha]

theorem inv_init : Collected.Inv ⟨[], []⟩ [] := by
  refine ⟨fun v => by simp, List.nodup_nil, fun v => Iff.rfl, List.Pairwise.nil⟩

theorem collect_inv {st : Collected} {seen : List (List Char)} (h : st.Inv seen)
    (v : List Char) : (collect st v).Inv (seen ++ [v]) := by
  obtain ⟨hmap, hnd, hmem, hord⟩ := h
  have hmono : st.chinese_list.Pairwise
      (fun a b => (seen ++ [v]).indexOf a < (seen ++ [v]).indexOf b) := by
    rw [List.pairwise_iff_forall_sublist] at hord ⊢
    intro a b hab
    have ha : a ∈ seen := (hmem a).mp (hab.subset (by simp))
    have hb : b ∈ seen := (hmem b).mp (hab.subset (by simp))
    rw [indexOf_append_mem _ ha, indexOf_append_mem _ hb]
    exact hord hab
  by_cases hv : (st.chinese_map.lookup v).isSome = true
  · have hvl : v ∈ st.chinese_list := (hmap v).mp hv
    have hvs : v ∈ seen := (hmem v).mp hvl
    rw [collect, if_pos hv]
    refine ⟨hmap, hnd, fun w => ?_, hmono⟩
    rw [hmem w, List.mem_append, List.mem_singleton]
    constructor
    · exact Or.inl
    · rintro (h1 | rfl)
      · exact h1
      · exact hvs
  · have hvl : v ∉ st.chinese_list := fun e => hv ((hmap v).mpr e)
    have hvs : v ∉ seen := fun e => hvl ((hmem v).mpr e)
    rw [collect, if_neg hv]
    refine ⟨fun w => ?_, ?_, fun w => ?_, ?_⟩
    · show (List.lookup w ((v, true) :: st.chinese_map)).isSome = true ↔
        w ∈ st.chinese_list ++ [v]
      rw [List.mem_append, List.mem_singleton, List.lookup_cons]
      by_cases hwv : w = v
      · subst hwv
        simp
      · have : (w == v) = false := by simpa using hwv
        rw [this]
        simp only [hwv, or_false]
        exact hmap w
    · show (st.chinese_list ++ [v]).Nodup
      rw [List.nodup_append]
      refine ⟨hnd, List.nodup_singleton v, ?_⟩
      intro a ha hav
      rw [List.mem_singleton] at hav
      exact hvl (hav ▸ ha)
    · show w ∈ st.chinese_list ++ [v] ↔ w ∈ seen ++ [v]
      simp only [List.mem_append, hmem w]
    · show (st.chinese_list ++ [v]).Pairwise _
      rw [List.pairwise_append]
      refine ⟨hmono, List.pairwise_singleton _ _, ?_⟩
      intro a ha b hb
      rw [List.mem_singleton] at hb
      subst hb
      have has : a ∈ seen := (hmem a).mp ha
      rw [indexOf_append_mem _ has, indexOf_append_not_mem _ hvs]
      have := indexOf_lt_length_of_mem has
      omega

theorem foldl_collect_inv (xs : List (List Char)) :
    ∀ (st : Collected) (seen : List (List Char)), st.Inv seen →
      (xs.foldl collect st).Inv (seen ++ xs) := by
  induction xs with
  | nil =>
    intro st seen h
    simpa using h
  | cons x xs ih =>
    intro st seen h
    have := ih (collect st x) (seen ++ [x]) (collect_inv h x)
    simpa using this

theorem foldl_collect_extends (xs : List (List Char)) :
    ∀ st : Collected, ∃ ext, (xs.foldl collect st).chinese_list = st.chinese_list ++ ext := by
  induction xs with
  | nil =>
    intro st
    exact ⟨[], by simp⟩
  | cons x xs ih =>
    intro st
    obtain ⟨ext, hext⟩ := ih (collect st x)
    rw [List.foldl_cons, hext]
    by_cases hv : (st.chinese_map.lookup x).isSome = true
    · rw [collect, if_pos hv]
      exact ⟨ext, rfl⟩
    · rw [collect, if_neg hv]
      exact ⟨x :: ext, by simp⟩

theorem readLoop_eq (rs : List ReadLineResult) :
    ∀ zhList, readLoop rs zhList = zhList ++ rs.flatMap fun r => scanLine r.lineStr := by
  induction rs with
  | nil =>
    intro zhList
    simp [readLoop]
  | cons r rs ih =>
    intro zhList
    have := ih (zhList ++ scanLine r.lineStr)
    simp only [readLoop, List.foldl_cons] at this ⊢
    rw [this]
    simp

theorem readEachFile_ok {disk : Disk} {p : String} {f : List ReadLineResult}
    (h : disk p = .ok f) : readEachFile disk p = .ok (readLoop f []) := by
  rw [readEachFile, h]

/-- When every file opens, the outer loop is one fold over the concatenated
scan outputs. -/
theorem extractLoop_ok (disk : Disk) :
    ∀ (targetFileList : List String) (files : List (List ReadLineResult)),
      List.Forall₂ (fun p f => disk p = .ok f) targetFileList files →
      ∀ st, extractLoop disk targetFileList st =
        .ok ((files.flatMap fun f => readLoop f []).foldl collect st) := by
  intro targetFileList files h
  induction h with
  | nil =>
    intro st
    rfl
  | cons hpf _ ih =>
    intro st
    rw [extractLoop, readEachFile_ok hpf]
    simp only [List.flatMap_cons, List.foldl_append]
    exact ih _

theorem extractChinese_ok (disk : Disk) (targetFileList : List String)
    (files : List (List ReadLineResult))
    (h : List.Forall₂ (fun p f => disk p = .ok f) targetFileList files) :
    extractChinese disk targetFileList =
      .ok ((files.flatMap fun f => readLoop f []).foldl collect ⟨[], []⟩).chinese_list := by
  rw [extractChinese, extractLoop_ok disk targetFileList files h]

/-! ## Splitting a line at its first and last quote -/

theorem exists_last_occurrence {a : Char} {xs : List Char} (h : a ∈ xs) :
    ∃ as bs, xs = as ++ a :: bs ∧ a ∉ bs := by
  obtain ⟨as, bs, hrev, has⟩ := List.eq_append_cons_of_mem (List.mem_reverse.mpr h)
  refine ⟨bs.reverse, as.reverse, ?_, fun e => has (List.mem_reverse.mp e)⟩
  have := congrArg List.reverse hrev
  simpa using this

theorem prefix_of_first_quote {pre0 r0 pre r : List Char}
    (h : pre0 ++ dq :: r0 = pre ++ dq :: r) (h0 : dq ∉ pre0) : ∃ t, pre = pre0 ++ t := by
  rcases List.append_eq_append_iff.mp h with ⟨a', ha, -⟩ | ⟨c', hc, hr⟩
  · exact ⟨a', ha⟩
  · cases c' with
    | nil => exact ⟨[], by simpa using hc.symm⟩
    | cons d c' =>
      rw [List.cons_append] at hr
      have hd : dq = d := (List.cons.inj hr).1
      exact absurd (by rw [hc, hd]; simp) h0

/-- A text with a Han rune between two quotes splits at its first and its last
quote, the Han rune lying between them. -/
theorem split_first_last {a m b : List Char} (hh : ∃ c ∈ m, isHan c = true) :
    ∃ pre mid post, a ++ dq :: (m ++ dq :: b) = pre ++ dq :: (mid ++ dq :: post) ∧
      dq ∉ pre ∧ dq ∉ post ∧ ∃ c ∈ mid, isHan c = true := by
  obtain ⟨c, hc, hcH⟩ := hh
  have front : ∃ pre m', a ++ dq :: m = pre ++ dq :: m' ∧ dq ∉ pre ∧ c ∈ m' := by
    by_cases ha : dq ∈ a
    · obtain ⟨pre, a', rfl, hpre⟩ := List.eq_append_cons_of_mem ha
      exact ⟨pre, a' ++ dq :: m, by simp, hpre, by simp [hc]⟩
    · exact ⟨a, m, rfl, ha, hc⟩
  have back : ∃ m'' post, m ++ dq :: b = m'' ++ dq :: post ∧ dq ∉ post ∧
      ∃ t, m'' = m ++ t := by
    by_cases hb : dq ∈ b
    · obtain ⟨b', post, rfl, hpost⟩ := exists_last_occurrence hb
      exact ⟨m ++ dq :: b', post, by simp, hpost, dq :: b', rfl⟩
    · exact ⟨m, b, rfl, hb, [], by simp⟩
  obtain ⟨pre, m', h1, hpre, hcm⟩ := front
  obtain ⟨m'', post, h2, hpost, t, ht⟩ := back
  refine ⟨pre, m' ++ t, post, ?_, hpre, hpost, c, by simp [hcm], hcH⟩
  have e1 : a ++ dq :: (m ++ dq :: b) = (a ++ dq :: m) ++ dq :: b := by simp
  have e2 : m ++ dq :: b = m ++ t ++ dq :: post := by rw [h2, ht]
  calc a ++ dq :: (m ++ dq :: b)
      = a ++ dq :: (m ++ t ++ dq :: post) := by rw [e2]
    _ = (a ++ dq :: m) ++ (t ++ dq :: post) := by simp
    _ = (pre ++ dq :: m') ++ (t ++ dq :: post) := by rw [h1]
    _ = pre ++ dq :: (m' ++ t ++ dq :: post) := by simp

/-- No word of the line pattern is a prefix of a text whose first slash or
number sign stands before its first quote. -/
theorem matchHere_line_comment (a b : List Char) (c : Char) (ha : dq ∉ a)
    (hc : c = slash ∨ c = hash) : matchHere zh_line_pattern.pieces (a ++ c :: b) = none := by
  cases hm : matchHere zh_line_pattern.pieces (a ++ c :: b) with
  | none => rfl
  | some n =>
    exfalso
    obtain ⟨w, t, hwt, -, hM⟩ := matchHere_sound _ _ _ hm
    obtain ⟨p, x, h, y, rfl, hs, hn, -, -, -⟩ := matches_zh_line_pattern hM
    have hcd : c ≠ dq := by
      rcases hc with rfl | rfl <;> decide
    have hcp : c ∉ p := by
      rcases hc with rfl | rfl
      · exact hs
      · exact hn
    have e : a ++ c :: b = p ++ dq :: ((x ++ h :: (y ++ [dq])) ++ t) := by
      rw [hwt]
      simp
    rcases List.append_eq_append_iff.mp e with ⟨a', hp, hr⟩ | ⟨c', hac, hr⟩
    · cases a' with
      | nil =>
        rw [List.nil_append] at hr
        exact hcd (List.cons.inj hr).1
      | cons d a' =>
        rw [List.cons_append] at hr
        have hd : c = d := (List.cons.inj hr).1
        exact hcp (by rw [hp, hd]; simp)
    · cases c' with
      | nil =>
        rw [List.nil_append] at hr
        exact hcd (List.cons.inj hr).1.symm
      | cons d c' =>
        rw [List.cons_append] at hr
        have hd : dq = d := (List.cons.inj hr).1
        exact ha (by rw [hac, hd]; simp)

theorem matchHere_line_no_han (line : List Char) (h : ∀ c ∈ line, isHan c = false) :
    matchHere zh_line_pattern.pieces line = none := by
  cases hm : matchHere zh_line_pattern.pieces line with
  | none => rfl
  | some n =>
    exfalso
    obtain ⟨w, t, rfl, -, hM⟩ := matchHere_sound _ _ _ hm
    obtain ⟨p, x, c, y, rfl, -, -, hc, -, -⟩ := matches_zh_line_pattern hM
    have := h c (by simp)
    rw [hc] at this
    exact Bool.noConfusion this

/-! ## Results of `extractChinese` -/

theorem extractLoop_files (disk : Disk) :
    ∀ (targetFileList : List String) (st st' : Collected),
      extractLoop disk targetFileList st = .ok st' →
      ∃ files, List.Forall₂ (fun p f => disk p = .ok f) targetFileList files := by
  intro targetFileList
  induction targetFileList with
  | nil =>
    intro st st' _
    exact ⟨[], List.Forall₂.nil⟩
  | cons p rest ih =>
    intro st st' h
    cases hp : disk p with
    | error e => simp [extractLoop, readEachFile, hp] at h
    | ok f =>
      rw [extractLoop, readEachFile_ok hp] at h
      obtain ⟨files, hfiles⟩ := ih _ _ h
      exact ⟨f :: files, List.Forall₂.cons hp hfiles⟩

theorem extractChinese_eq_ok {disk : Disk} {targetFileList : List String}
    {r : List (List Char)} (h : extractChinese disk targetFileList = .ok r) :
    ∃ files, List.Forall₂ (fun p f => disk p = .ok f) targetFileList files ∧
      r = ((scanOutputs files).foldl collect ⟨[], []⟩).chinese_list := by
  cases hl : extractLoop disk targetFileList ⟨[], []⟩ with
  | error e => simp [extractChinese, hl] at h
  | ok st =>
    obtain ⟨files, hfiles⟩ := extractLoop_files disk _ _ _ hl
    refine ⟨files, hfiles, ?_⟩
    rw [extractChinese_ok disk targetFileList files hfiles] at h
    exact (Except.ok.inj h).symm

theorem collected_inv (xs : List (List Char)) :
    (xs.foldl collect ⟨[], []⟩).Inv xs := by
  simpa using foldl_collect_inv xs ⟨[], []⟩ [] inv_init

theorem mem_scanOutputs {files : List (List ReadLineResult)} {c : List Char}
    (h : c ∈ scanOutputs files) : ∃ line, c ∈ scanLine line := by
  unfold scanOutputs at h
  obtain ⟨f, -, hc⟩ := List.mem_flatMap.mp h
  rw [readLoop_eq, List.nil_append] at hc
  obtain ⟨r, -, hr⟩ := List.mem_flatMap.mp hc
  exact ⟨r.lineStr, hr⟩

/-- A list without duplicates goes through the collector unchanged. -/
theorem foldl_collect_nodup (xs : List (List Char)) (h : xs.Nodup) :
    (xs.foldl collect ⟨[], []⟩).chinese_list = xs := by
  have key : ∀ (ys done l : List (List Char)) (m : List (List Char × Bool)),
      (done ++ ys).Nodup → (∀ v, (m.lookup v).isSome = true ↔ v ∈ l) → l = done →
      (ys.foldl collect ⟨l, m⟩).chinese_list = done ++ ys := by
    intro ys
    induction ys with
    | nil =>
      intro done l m _ _ hl
      simpa using hl
    | cons y ys ih =>
      intro done l m hnd' hm hl
      have hy : y ∉ done := by
        intro e
        have := List.nodup_append.mp hnd'
        exact this.2.2 e (by simp)
      have hlook : ¬ (m.lookup y).isSome = true := fun e => hy (hl ▸ (hm y).mp e)
      rw [List.foldl_cons, collect, if_neg hlook]
      have := ih (done ++ [y]) (l ++ [y]) ((y, true) :: m) (by simpa using hnd') ?_
        (by rw [hl])
      · simpa using this
      · intro v
        rw [List.lookup_cons, List.mem_append, List.mem_singleton]
        by_cases hvy : v = y
        · subst hvy
          simp
        · have hb : (v == y) = false := by simpa using hvy
          rw [hb]
          simp only [hvy, or_false]
          exact hm v
  simpa using key xs [] [] [] (by simpa using h) (fun v => by simp) rfl

/-! ## Scanning candidates again, appending a file, selecting files -/

theorem scanLine_candidate {c : List Char} (h : Matches zh_pattern.pieces c) :
    scanLine c = [c] := by
  obtain ⟨x, k, y, rfl, hk, hx, hy⟩ := matches_zh_pattern h
  have hmid : nl ∉ x ++ k :: y := by
    intro e
    rcases List.mem_append.mp e with e | e
    · exact hx e
    · rcases List.mem_cons.mp e with e | e
      · exact isHan_ne_nl hk e.symm
      · exact hy e
  have := scanLine_exact [] (x ++ k :: y) [] (by simp) (by simp) (by simp) hmid
    ⟨k, by simp, hk⟩ (by simp)
  simpa using this

theorem readLoop_fileOfLines (E : List (List Char)) (h : ∀ c ∈ E, scanLine c = [c]) :
    readLoop (fileOfLines E) [] = E := by
  rw [readLoop_eq, List.nil_append, fileOfLines]
  induction E with
  | nil => rfl
  | cons c E ih =>
    have hc : scanLine c = [c] := h c (by simp)
    have := ih (fun d hd => h d (List.mem_cons_of_mem _ hd))
    rw [List.map_cons, List.flatMap_cons, this]
    show scanLine c ++ E = c :: E
    rw [hc]
    rfl

theorem extractLoop_append (disk : Disk) (xs ys : List String) :
    ∀ st, extractLoop disk (xs ++ ys) st =
      match extractLoop disk xs st with
      | .error e => .error e
      | .ok st' => extractLoop disk ys st' := by
  induction xs with
  | nil =>
    intro st
    rfl
  | cons x xs ih =>
    intro st
    rw [List.cons_append, extractLoop, extractLoop]
    cases readEachFile disk x with
    | error e => rfl
    | ok zhList => exact ih _

theorem mem_inner_loop (TargetFileList : List String) (name filename p : String) :
    ∀ files0 : List String,
      p ∈ TargetFileList.foldl
        (fun files value => if value = name then files ++ [filename] else files) files0 →
      p ∈ files0 ∨ (p = filename ∧ name ∈ TargetFileList) := by
  induction TargetFileList with
  | nil =>
    intro files0 h
    exact Or.inl h
  | cons value rest ih =>
    intro files0 h
    rw [List.foldl_cons] at h
    rcases ih _ h with h1 | ⟨h1, h2⟩
    · by_cases hv : value = name
      · rw [if_pos hv, List.mem_append, List.mem_singleton] at h1
        rcases h1 with h1 | h1
        · exact Or.inl h1
        · exact Or.inr ⟨h1, by simp [hv]⟩
      · rw [if_neg hv] at h1
        exact Or.inl h1
    · exact Or.inr ⟨h1, List.mem_cons_of_mem _ h2⟩

theorem mem_walkLoop (TargetFileList : List String) (p : String) :
    ∀ (walk : List WalkVisit) (files0 files : List String),
      walkLoop TargetFileList walk files0 = .ok files → p ∈ files →
      p ∈ files0 ∨ ∃ v ∈ walk, v.filename = p ∧ v.fi.IsDir = false ∧
        v.fi.Name ∈ TargetFileList := by
  intro walk
  induction walk with
  | nil =>
    intro files0 files h hp
    rw [walkLoop] at h
    exact Or.inl ((Except.ok.inj h) ▸ hp)
  | cons v vs ih =>
    intro files0 files h hp
    rw [walkLoop] at h
    cases hv : walkFn TargetFileList files0 v with
    | error e => simp [hv] at h
    | ok files1 =>
      rw [hv] at h
      rcases ih files1 files h hp with h1 | ⟨w, hw, hrest⟩
      · unfold walkFn at hv
        cases he : v.err with
        | some e => simp [he] at hv
        | none =>
          rw [he] at hv
          by_cases hd : v.fi.IsDir = true
          · simp only [hd, if_true] at hv
            exact Or.inl ((Except.ok.inj hv) ▸ h1)
          · simp only [hd] at hv
            have hv' := Except.ok.inj hv
            rw [← hv'] at h1
            rcases mem_inner_loop _ _ _ _ _ h1 with h2 | ⟨h2, h3⟩
            · exact Or.inl h2
            · exact Or.inr ⟨v, by simp, h2.symm, by simpa using hd, h3⟩
      · exact Or.inr ⟨w, List.mem_cons_of_mem _ hw, hrest⟩

theorem walkLoop_total (TargetFileList : List String) :
    ∀ (walk : List WalkVisit) (files0 : List String), (∀ v ∈ walk, v.err = none) →
      ∃ files, walkLoop TargetFileList walk files0 = .ok files := by
  intro walk
  induction walk with
  | nil =>
    intro files0 _
    exact ⟨files0, rfl⟩
  | cons v vs ih =>
    intro files0 h
    have he : v.err = none := h v (by simp)
    have ih' := fun f => ih f (fun w hw => h w (List.mem_cons_of_mem _ hw))
    rw [walkLoop, walkFn, he]
    by_cases hd : v.fi.IsDir = true
    · simp only [hd, if_true]
      exact ih' _
    · simp only [hd]
      exact ih' _

/-! ## The claims -/

/-- C1: when every target file opens, `extractChinese` returns a list without
duplicates that holds exactly the strings of the concatenated per-file scan
outputs, ordered by their first occurrence in that concatenation. -/
theorem C1_extractChinese_first_occurrence (disk : Disk) (targetFileList : List String)
    (files : List (List ReadLineResult))
    (hopen : List.Forall₂ (fun p f => disk p = .ok f) targetFileList files) :
    ∃ r, extractChinese disk targetFileList = .ok r ∧ r.Nodup ∧
      (∀ c, c ∈ r ↔ c ∈ scanOutputs files) ∧
      r.Pairwise fun a b => (scanOutputs files).indexOf a < (scanOutputs files).indexOf b := by
  refine ⟨_, extractChinese_ok disk targetFileList files hopen, ?_⟩
  obtain ⟨-, hnd, hmem, hord⟩ := collected_inv (scanOutputs files)
  exact ⟨hnd, hmem, hord⟩

/-- Witness of C1: two files that both hold the line `msg = "确认"`. -/
theorem C1_witness :
    ∃ r, extractChinese (fun _ => .ok (fileOfLines ["msg = \"确认\"".toList]))
        ["a/ui.lua", "b/ui.lua"] = .ok r ∧ r.Nodup ∧
      (∀ c, c ∈ r ↔ c ∈ scanOutputs [fileOfLines ["msg = \"确认\"".toList],
        fileOfLines ["msg = \"确认\"".toList]]) ∧
      r.Pairwise fun a b =>
        (scanOutputs [fileOfLines ["msg = \"确认\"".toList],
          fileOfLines ["msg = \"确认\"".toList]]).indexOf a <
        (scanOutputs [fileOfLines ["msg = \"确认\"".toList],
          fileOfLines ["msg = \"确认\"".toList]]).indexOf b :=
  C1_extractChinese_first_occurrence _ _ _
    (List.Forall₂.cons rfl (List.Forall₂.cons rfl List.Forall₂.nil))

/-- C2: a line without line feed whose first quote is preceded by no slash and
no number sign and has a Han rune between its first and its last quote yields
exactly one candidate, the text from the first quote through the last quote;
so does the six-literal line of the scenario. -/
theorem C2_first_quote_to_last_quote :
    (∀ pre mid post : List Char, nl ∉ pre ++ dq :: (mid ++ dq :: post) →
      dq ∉ pre → slash ∉ pre → hash ∉ pre → (∃ c ∈ mid, isHan c = true) → dq ∉ post →
      scanLine (pre ++ dq :: (mid ++ dq :: post)) = [dq :: (mid ++ [dq])]) ∧
    scanLine "a=\"一\" b=\"二\" c=\"三\" d=\"四\" e=\"五\" f=\"六\"".toList =
      ["\"一\" b=\"二\" c=\"三\" d=\"四\" e=\"五\" f=\"六\"".toList] := by
  refine ⟨?_, by decide⟩
  intro pre mid post hnl hq hs hn hh hpost
  have hmid : nl ∉ mid := fun e => hnl (by simp [e])
  exact scanLine_exact pre mid post hq hs hn hmid hh hpost

/-- Witness of C2: the line `x = "好" + "b" ;`. -/
theorem C2_witness :
    scanLine ("x = ".toList ++ dq :: ("好\" + \"b".toList ++ dq :: " ;".toList)) =
      [dq :: ("好\" + \"b".toList ++ [dq])] :=
  C2_first_quote_to_last_quote.1 "x = ".toList "好\" + \"b".toList " ;".toList
    (by decide) (by decide) (by decide) (by decide) (by decide) (by decide)

/-- C3: a line without line feed contributes a candidate if and only if some
quote of it is preceded by no slash and no number sign, and some Han rune of it
lies between two quotes. -/
theorem C3_scan_nonempty_iff (line : List Char) (hnl : nl ∉ line) :
    scanLine line ≠ [] ↔
      ((∃ pre rest, line = pre ++ dq :: rest ∧ slash ∉ pre ∧ hash ∉ pre) ∧
        ∃ a m b, line = a ++ dq :: (m ++ dq :: b) ∧ ∃ c ∈ m, isHan c = true) := by
  constructor
  · intro hne
    cases hm : matchHere zh_line_pattern.pieces line with
    | none => exact absurd (scanLine_of_not_match hm) hne
    | some n =>
      obtain ⟨w, t, rfl, -, hM⟩ := matchHere_sound _ _ _ hm
      obtain ⟨p, x, c, y, rfl, hs, hn, hc, -, -⟩ := matches_zh_line_pattern hM
      refine ⟨⟨p, (x ++ c :: (y ++ [dq])) ++ t, by simp, hs, hn⟩, p, x ++ c :: y, t, by simp,
        c, by simp, hc⟩
  · rintro ⟨⟨pre, rest, hpre, hs, hn⟩, a, m, b, hline, hh⟩
    obtain ⟨pre0, mid, post, hsplit, hq0, hpost, hh0⟩ := split_first_last (a := a) (b := b) hh
    rw [← hline] at hsplit
    obtain ⟨t, ht⟩ := prefix_of_first_quote (hsplit.symm.trans hpre) hq0
    have hs0 : slash ∉ pre0 := fun e => hs (by rw [ht]; simp [e])
    have hn0 : hash ∉ pre0 := fun e => hn (by rw [ht]; simp [e])
    have hmid : nl ∉ mid := fun e => hnl (by rw [hsplit]; simp [e])
    rw [hsplit, scanLine_exact pre0 mid post hq0 hs0 hn0 hmid hh0 hpost]
    simp

/-- Witness of C3: the line `s = "汉"`. -/
theorem C3_witness :
    scanLine "s = \"汉\"".toList ≠ [] ↔
      ((∃ pre rest, "s = \"汉\"".toList = pre ++ dq :: rest ∧ slash ∉ pre ∧ hash ∉ pre) ∧
        ∃ a m b, "s = \"汉\"".toList = a ++ dq :: (m ++ dq :: b) ∧
          ∃ c ∈ m, isHan c = true) :=
  C3_scan_nonempty_iff "s = \"汉\"".toList (by decide)

/-- C4: every candidate the per-line scan returns, and so every element of a
result of `extractChinese`, begins with a quote, ends with a quote and holds a
Han rune. -/
theorem C4_candidate_shape :
    (∀ line c : List Char, c ∈ scanLine line →
      c.head? = some dq ∧ c.getLast? = some dq ∧ ∃ h ∈ c, isHan h = true) ∧
    (∀ (disk : Disk) (targetFileList : List String) (r : List (List Char)),
      extractChinese disk targetFileList = .ok r →
      ∀ c ∈ r, c.head? = some dq ∧ c.getLast? = some dq ∧ ∃ h ∈ c, isHan h = true) := by
  constructor
  · intro line c hc
    exact isCandidate_of_matches (scanLine_matches hc)
  · intro disk targetFileList r hr c hc
    obtain ⟨files, -, rfl⟩ := extractChinese_eq_ok hr
    obtain ⟨-, -, hmem, -⟩ := collected_inv (scanOutputs files)
    obtain ⟨line, hline⟩ := mem_scanOutputs ((hmem c).mp hc)
    exact isCandidate_of_matches (scanLine_matches hline)

/-- Witness of C4: the candidate of the line `label = "你好"`. -/
theorem C4_witness :
    ("\"你好\"".toList).head? = some dq ∧ ("\"你好\"".toList).getLast? = some dq ∧
      ∃ h ∈ "\"你好\"".toList, isHan h = true :=
  C4_candidate_shape.1 "label = \"你好\"".toList "\"你好\"".toList (by decide)

/-- C5: a line in which a slash or a number sign stands before the first quote
contributes no candidate, whatever follows; so for the two comment lines of the
scenario. -/
theorem C5_comment_before_quote :
    (∀ (a b : List Char) (c : Char), dq ∉ a → (c = slash ∨ c = hash) →
      scanLine (a ++ c :: b) = []) ∧
    scanLine "// name = \"名字\"".toList = [] ∧
    scanLine "# label = \"名字\"".toList = [] := by
  refine ⟨?_, by decide, by decide⟩
  intro a b c ha hc
  exact scanLine_of_not_match (matchHere_line_comment a b c ha hc)

/-- Witness of C5: the line `x / "中"`. -/
theorem C5_witness : scanLine ("x ".toList ++ slash :: " \"中\"".toList) = [] :=
  C5_comment_before_quote.1 "x ".toList " \"中\"".toList slash (by decide) (Or.inl rfl)

/-- C6: a line without line feed made of a prefix free of slash, number sign
and quote, one quoted literal whose body holds a Han rune and no quote, and a
suffix free of quotes yields exactly that literal with its quotes; the file of
the first scenario extracts to its two literals, rendered one per line. -/
theorem C6_single_literal :
    (∀ pre body post : List Char, nl ∉ pre ++ dq :: (body ++ dq :: post) →
      slash ∉ pre → hash ∉ pre → dq ∉ pre → (∃ c ∈ body, isHan c = true) → dq ∉ body →
      dq ∉ post → scanLine (pre ++ dq :: (body ++ dq :: post)) = [dq :: (body ++ [dq])]) ∧
    extractChinese
      (fun _ => .ok (fileOfLines ["-- header".toList, "label = \"你好\"".toList,
        "// greeting = \"hi\"".toList, "title = \"标题\"  // suffix".toList]))
      ["./root/ui.lua"] = .ok ["\"你好\"".toList, "\"标题\"".toList] ∧
    writeToFile (.ok ()) ["\"你好\"".toList, "\"标题\"".toList] =
      .ok "\"你好\"\n\"标题\"\n".toList := by
  refine ⟨?_, by rfl, by rfl⟩
  intro pre body post hnl hs hn hq hh _ hpost
  have hmid : nl ∉ body := fun e => hnl (by simp [e])
  exact scanLine_exact pre body post hq hs hn hmid hh hpost

/-- Witness of C6: the line `name = "你好"  // trailing comment`. -/
theorem C6_witness :
    scanLine ("name = ".toList ++ dq :: ("你好".toList ++ dq :: "  // trailing comment".toList)) =
      [dq :: ("你好".toList ++ [dq])] :=
  C6_single_literal.1 "name = ".toList "你好".toList "  // trailing comment".toList
    (by decide) (by decide) (by decide) (by decide) (by decide) (by decide) (by decide)

/-- C7: a line without any Han rune contributes no candidate; so for the line
`tag = "hello"`. -/
theorem C7_no_han_no_candidate :
    (∀ line : List Char, (∀ c ∈ line, isHan c = false) → scanLine line = []) ∧
    scanLine "tag = \"hello\"".toList = [] := by
  refine ⟨?_, by decide⟩
  intro line h
  exact scanLine_of_not_match (matchHere_line_no_han line h)

/-- Witness of C7: the line `x = "y" // z`. -/
theorem C7_witness : scanLine "x = \"y\" // z".toList = [] :=
  C7_no_han_no_candidate.1 "x = \"y\" // z".toList (by decide)

/-- C8: scanning a file whose lines are the elements of an extraction result,
in order, and collecting the scan gives that result again; scanning one
candidate as a line gives exactly that candidate. -/
theorem C8_idempotence :
    (∀ (disk : Disk) (targetFileList : List String) (E : List (List Char)),
      extractChinese disk targetFileList = .ok E →
      ∀ (disk' : Disk) (p : String), disk' p = .ok (fileOfLines E) →
        readEachFile disk' p = .ok E ∧ extractChinese disk' [p] = .ok E) ∧
    (∀ line c : List Char, c ∈ scanLine line → scanLine c = [c]) := by
  constructor
  · intro disk targetFileList E hE disk' p hp
    obtain ⟨files, -, rfl⟩ := extractChinese_eq_ok hE
    obtain ⟨-, hnd, hmem, -⟩ := collected_inv (scanOutputs files)
    have hscan : ∀ c ∈ ((scanOutputs files).foldl collect ⟨[], []⟩).chinese_list,
        scanLine c = [c] := by
      intro c hc
      obtain ⟨line, hline⟩ := mem_scanOutputs ((hmem c).mp hc)
      exact scanLine_candidate (scanLine_matches hline)
    have hread := readLoop_fileOfLines _ hscan
    refine ⟨by rw [readEachFile_ok hp, hread], ?_⟩
    rw [extractChinese_ok disk' [p] [fileOfLines _]
      (List.Forall₂.cons hp List.Forall₂.nil)]
    simp only [List.flatMap_cons, List.flatMap_nil, List.append_nil, hread]
    rw [foldl_collect_nodup _ hnd]
  · intro line c hc
    exact scanLine_candidate (scanLine_matches hc)

/-- Witness of C8: the candidate of the line `title = "标题"  // suffix`. -/
theorem C8_witness : scanLine "\"标题\"".toList = ["\"标题\"".toList] :=
  C8_idempotence.2 "title = \"标题\"  // suffix".toList "\"标题\"".toList (by decide)

/-- C9: when the extraction of a list of files succeeds and one more file that
opens is placed after them, the extraction of the longer list succeeds and has
the earlier result as a prefix. -/
theorem C9_monotone (disk : Disk) (targetFileList : List String) (f : String)
    (content : List ReadLineResult) (r : List (List Char))
    (h1 : extractChinese disk targetFileList = .ok r) (h2 : disk f = .ok content) :
    ∃ r', extractChinese disk (targetFileList ++ [f]) = .ok r' ∧ r <+: r' := by
  cases hl : extractLoop disk targetFileList ⟨[], []⟩ with
  | error e => simp [extractChinese, hl] at h1
  | ok st =>
    have hr : st.chinese_list = r := by
      simpa [extractChinese, hl] using h1
    obtain ⟨ext, hext⟩ := foldl_collect_extends (readLoop content []) st
    refine ⟨st.chinese_list ++ ext, ?_, ?_⟩
    · rw [extractChinese, extractLoop_append, hl]
      simp only [extractLoop, readEachFile_ok h2, hext]
    · rw [hr]
      exact List.prefix_append r ext

/-- Witness of C9: a file with `msg = "确认"`, then a file with `t = "标题"`. -/
theorem C9_witness :
    ∃ r', extractChinese
        (fun p => if p = "a.lua" then .ok (fileOfLines ["msg = \"确认\"".toList])
          else .ok (fileOfLines ["t = \"标题\"".toList]))
        (["a.lua"] ++ ["b.lua"]) = .ok r' ∧ ["\"确认\"".toList] <+: r' :=
  C9_monotone _ ["a.lua"] "b.lua" (fileOfLines ["t = \"标题\"".toList])
    ["\"确认\"".toList] (by rfl) (by rfl)

/-- C10: every path `getTargetFileList` returns is the path of a visited entry
that is no directory and whose base name equals an element of `TargetFileList`;
and a walk without error does return a list. -/
theorem C10_selected_are_targets (TargetFileList : List String) (walk : List WalkVisit) :
    (∀ files, getTargetFileList TargetFileList walk = .ok files →
      ∀ p ∈ files, ∃ v ∈ walk, v.filename = p ∧ v.fi.IsDir = false ∧
        v.fi.Name ∈ TargetFileList) ∧
    ((∀ v ∈ walk, v.err = none) →
      ∃ files, getTargetFileList TargetFileList walk = .ok files) := by
  constructor
  · intro files h p hp
    rcases mem_walkLoop TargetFileList p walk [] files h hp with h0 | h0
    · simp at h0
    · exact h0
  · intro h
    exact walkLoop_total TargetFileList walk [] h

/-- Witness of C10: a root directory holding `ui.lua` and `notes.txt`. -/
theorem C10_witness :
    ∃ v ∈ [WalkVisit.mk "root" ⟨"root", true⟩ none,
        WalkVisit.mk "root/notes.txt" ⟨"notes.txt", false⟩ none,
        WalkVisit.mk "root/ui.lua" ⟨"ui.lua", false⟩ none],
      v.filename = "root/ui.lua" ∧ v.fi.IsDir = false ∧ v.fi.Name ∈ ["ui.lua"] :=
  (C10_selected_are_targets ["ui.lua"]
    [WalkVisit.mk "root" ⟨"root", true⟩ none,
      WalkVisit.mk "root/notes.txt" ⟨"notes.txt", false⟩ none,
      WalkVisit.mk "root/ui.lua" ⟨"ui.lua", false⟩ none]).1 ["root/ui.lua"] (by rfl)
    "root/ui.lua" (by simp)

/-! ## Selection, configuration and rendering -/

theorem inner_loop_eq (TargetFileList : List String) (name filename : String) :
    ∀ files0 : List String,
      TargetFileList.foldl
        (fun files value => if value = name then files ++ [filename] else files) files0 =
      files0 ++ List.replicate (TargetFileList.count name) filename := by
  induction TargetFileList with
  | nil =>
    intro files0
    simp
  | cons value rest ih =>
    intro files0
    rw [List.foldl_cons, ih]
    by_cases hv : value = name
    · subst hv
      rw [if_pos rfl, List.count_cons_self, List.replicate_succ]
      simp
    · rw [if_neg hv, List.count_cons_of_ne (fun e => hv e.symm)]

theorem walkLoop_eq (TargetFileList : List String) :
    ∀ (walk : List WalkVisit) (files0 : List String), (∀ v ∈ walk, v.err = none) →
      walkLoop TargetFileList walk files0 =
        .ok (files0 ++ walk.flatMap (selectedPaths TargetFileList)) := by
  intro walk
  induction walk with
  | nil =>
    intro files0 _
    simp [walkLoop]
  | cons v vs ih =>
    intro files0 h
    have he : v.err = none := h v (by simp)
    have ih' := fun f => ih f (fun w hw => h w (List.mem_cons_of_mem _ hw))
    rw [walkLoop, walkFn, he]
    by_cases hd : v.fi.IsDir = true
    · simp only [hd, if_true]
      rw [ih']
      simp [selectedPaths, hd]
    · simp only [hd, Bool.false_eq_true, if_false]
      rw [ih', inner_loop_eq]
      simp [selectedPaths, hd]

theorem selectedPaths_nodup (TargetFileList : List String) (h : TargetFileList.Nodup) :
    ∀ walk : List WalkVisit,
      walk.flatMap (selectedPaths TargetFileList) = restrictedWalk TargetFileList walk := by
  intro walk
  induction walk with
  | nil => rfl
  | cons v vs ih =>
    rw [List.flatMap_cons, ih]
    unfold restrictedWalk selectedPaths
    by_cases hd : v.fi.IsDir = true
    · simp [hd]
    · by_cases hm : v.fi.Name ∈ TargetFileList
      · have hc : TargetFileList.count v.fi.Name = 1 := List.count_eq_one_of_mem h hm
        simp [hd, hm, hc]
      · have hc : TargetFileList.count v.fi.Name = 0 := List.count_eq_zero_of_not_mem hm
        simp [hd, hm, hc]

theorem string_length_eq_zero (s : String) : s.length = 0 ↔ s = "" := by
  constructor
  · intro h
    have : s.data = [] := List.length_eq_zero.mp h
    exact String.ext this
  · rintro rfl
    rfl

theorem foldl_render (xs : List (List Char)) :
    ∀ out : List Char,
      xs.foldl (fun out value => out ++ (value ++ [nl])) out = out ++ rendered xs := by
  induction xs with
  | nil =>
    intro out
    simp [rendered]
  | cons x xs ih =>
    intro out
    rw [List.foldl_cons, ih]
    simp [rendered]

theorem writeToFile_ok (chinese_list : List (List Char)) :
    writeToFile (.ok ()) chinese_list = .ok (rendered chinese_list) := by
  rw [writeToFile, foldl_render, List.nil_append]

theorem split_line (c rest : List Char) (hc : nl ∉ c) :
    Split (c ++ nl :: rest) nl = c :: Split rest nl := by
  induction c with
  | nil => simp [Split]
  | cons a c ih =>
    have ha : a ≠ nl := fun e => hc (by simp [e])
    have ih' := ih (fun e => hc (List.mem_cons_of_mem _ e))
    rw [List.cons_append, Split, if_neg ha, ih']

theorem split_rendered (xs : List (List Char)) (h : ∀ c ∈ xs, nl ∉ c) :
    Split (rendered xs) nl = xs ++ [[]] := by
  induction xs with
  | nil => rfl
  | cons x xs ih =>
    have ih' := ih (fun c hc => h c (List.mem_cons_of_mem _ hc))
    have hx : nl ∉ x := h x (by simp)
    unfold rendered at ih' ⊢
    rw [List.flatMap_cons, List.append_assoc, List.singleton_append, split_line _ _ hx, ih']
    rfl

theorem matches_no_nl {c : List Char} (h : Matches zh_pattern.pieces c) : nl ∉ c := by
  obtain ⟨x, k, y, rfl, hk, hx, hy⟩ := matches_zh_pattern h
  intro e
  rcases List.mem_cons.mp e with e | e
  · exact dq_ne_nl e.symm
  · rcases List.mem_append.mp e with e | e
    · exact hx e
    · rcases List.mem_cons.mp e with e | e
      · exact isHan_ne_nl hk e.symm
      · rcases List.mem_append.mp e with e | e
        · exact hy e
        · exact dq_ne_nl (List.mem_singleton.mp e).symm

theorem extractChinese_no_nl {disk : Disk} {targetFileList : List String}
    {E : List (List Char)} (h : extractChinese disk targetFileList = .ok E) :
    ∀ c ∈ E, nl ∉ c := by
  intro c hc
  obtain ⟨files, -, rfl⟩ := extractChinese_eq_ok h
  obtain ⟨-, -, hmem, -⟩ := collected_inv (scanOutputs files)
  obtain ⟨line, hline⟩ := mem_scanOutputs ((hmem c).mp hc)
  exact matches_no_nl (scanLine_matches hline)

theorem init_path_missing {content : String → Option String}
    (h : content "TargetPath" = none) :
    init (.content content) = .error (.message "不存在名为TargetPath的配置或配置为空") := by
  simp [init, h]

theorem init_path_empty {content : String → Option String}
    (h : content "TargetPath" = some "") :
    init (.content content) = .error (.message "不存在名为TargetPath的配置或配置为空") := by
  simp [init, h]

theorem init_file_missing {content : String → Option String} {p : String}
    (h : content "TargetPath" = some p) (hp : p ≠ "") (hf : content "TargetFile" = none) :
    init (.content content) = .error (.message "不存在名为TargetFile的配置或配置为空") := by
  have : ¬ p.length = 0 := fun e => hp ((string_length_eq_zero p).mp e)
  simp [init, h, hf, this]

theorem init_file_empty {content : String → Option String} {p : String}
    (h : content "TargetPath" = some p) (hp : p ≠ "")
    (hf : content "TargetFile" = some "") :
    init (.content content) = .error (.message "不存在名为TargetFile的配置或配置为空") := by
  have : ¬ p.length = 0 := fun e => hp ((string_length_eq_zero p).mp e)
  simp [init, h, hf, this]

theorem init_ok {content : String → Option String} {p f : String}
    (h : content "TargetPath" = some p) (hp : p ≠ "")
    (hf : content "TargetFile" = some f) (hfe : f ≠ "") :
    init (.content content) =
      .ok ⟨p, (Split (Replace f.toList space [] 100) comma).map String.mk⟩ := by
  have h1 : ¬ p.length = 0 := fun e => hp ((string_length_eq_zero p).mp e)
  have h2 : ¬ f.length = 0 := fun e => hfe ((string_length_eq_zero f).mp e)
  simp [init, h, hf, h1, h2]

/-- On a text without line feed, what follows a match of `zh_pattern` holds no
quote. -/
theorem matchHere_zh_rest_no_dq {s : List Char} {n : Nat} (hnl : nl ∉ s)
    (h : matchHere zh_pattern.pieces s = some n) : dq ∉ s.drop n := by
  obtain ⟨w, t, rfl, rfl, hM⟩ := matchHere_sound _ _ _ h
  rw [List.drop_left]
  intro ht
  obtain ⟨t1, t2, rfl, ht2⟩ := exists_last_occurrence ht
  obtain ⟨x, c, y, rfl, hc, -, -⟩ := matches_zh_pattern hM
  have e : dq :: (x ++ c :: (y ++ [dq])) ++ (t1 ++ dq :: t2) =
      dq :: ((x ++ c :: (y ++ dq :: t1)) ++ dq :: t2) := by simp
  rw [e] at h hnl
  have hmid : nl ∉ x ++ c :: (y ++ dq :: t1) := fun e' =>
    hnl (List.mem_cons_of_mem _ (List.mem_append_left _ e'))
  rw [matchHere_zh_pattern_exact _ t2 hmid ⟨c, by simp, hc⟩ ht2] at h
  have := Option.some.inj h
  simp at this
  omega

/-- On a line, `FindAllString` of `zh_pattern` delivers the first match only,
whatever the positive count. -/
theorem findAllString_line (n : Nat) (line : List Char) (hnl : nl ∉ line) :
    zh_pattern.FindAllString line (n + 1) =
      match findFrom zh_pattern.pieces line with
      | none => []
      | some m => [(line.drop m.1).take m.2] := by
  cases hf : findFrom zh_pattern.pieces line with
  | none => exact allMatches_zh_none _ _ _ _ hf
  | some m =>
    obtain ⟨st, len⟩ := m
    rw [Regexp.FindAllString, allMatches_zh_step _ _ _ _ _ _ hf]
    obtain ⟨-, hm⟩ := findFrom_sound _ _ _ _ hf
    have hnl' : nl ∉ line.drop st := fun e => hnl (List.mem_of_mem_drop e)
    have hrest := matchHere_zh_rest_no_dq hnl' hm
    rw [List.drop_drop] at hrest
    rw [allMatches_zh_none _ _ _ _ (findFrom_zh_none hrest)]

/-- C11 (as amended): on a traversal without error, `getTargetFileList` returns,
in traversal order, the path of every entry that is no directory once for each
element of `TargetFileList` equal to its base name; when `TargetFileList` has no
repeated element this is the traversal restricted to the entries that are no
directory and whose base name is in `TargetFileList`, each listed once. -/
theorem C11_selection_exact (TargetFileList : List String) (walk : List WalkVisit)
    (herr : ∀ v ∈ walk, v.err = none) :
    getTargetFileList TargetFileList walk =
        .ok (walk.flatMap (selectedPaths TargetFileList)) ∧
      (TargetFileList.Nodup →
        getTargetFileList TargetFileList walk = .ok (restrictedWalk TargetFileList walk)) := by
  have h := walkLoop_eq TargetFileList walk [] herr
  rw [List.nil_append] at h
  refine ⟨h, fun hnd => ?_⟩
  rw [getTargetFileList, h, selectedPaths_nodup TargetFileList hnd]

/-- Witness of C11: a root directory holding `notes.txt` and `ui.lua`. -/
theorem C11_witness :
    getTargetFileList ["ui.lua"]
        [WalkVisit.mk "root" (FileInfo.mk "root" true) none,
          WalkVisit.mk "root/notes.txt" (FileInfo.mk "notes.txt" false) none,
          WalkVisit.mk "root/ui.lua" (FileInfo.mk "ui.lua" false) none] =
      .ok (restrictedWalk ["ui.lua"]
        [WalkVisit.mk "root" (FileInfo.mk "root" true) none,
          WalkVisit.mk "root/notes.txt" (FileInfo.mk "notes.txt" false) none,
          WalkVisit.mk "root/ui.lua" (FileInfo.mk "ui.lua" false) none]) :=
  (C11_selection_exact ["ui.lua"]
    [WalkVisit.mk "root" (FileInfo.mk "root" true) none,
      WalkVisit.mk "root/notes.txt" (FileInfo.mk "notes.txt" false) none,
      WalkVisit.mk "root/ui.lua" (FileInfo.mk "ui.lua" false) none]
    (by decide)).2 (by decide)

/-- Counterexample to C11 as stated: the configuration value `ui.lua,ui.lua`
parses to a list with a repeated element, and the one file `root/ui.lua` is then
returned twice, which is not the restricted traversal. -/
theorem C11_counterexample :
    init (configOf "./root" "ui.lua,ui.lua") = .ok ⟨"./root", ["ui.lua", "ui.lua"]⟩ ∧
    getTargetFileList ["ui.lua", "ui.lua"]
        [WalkVisit.mk "root" (FileInfo.mk "root" true) none,
          WalkVisit.mk "root/ui.lua" (FileInfo.mk "ui.lua" false) none] =
      .ok ["root/ui.lua", "root/ui.lua"] ∧
    restrictedWalk ["ui.lua", "ui.lua"]
        [WalkVisit.mk "root" (FileInfo.mk "root" true) none,
          WalkVisit.mk "root/ui.lua" (FileInfo.mk "ui.lua" false) none] =
      ["root/ui.lua"] ∧
    getTargetFileList ["ui.lua", "ui.lua"]
        [WalkVisit.mk "root" (FileInfo.mk "root" true) none,
          WalkVisit.mk "root/ui.lua" (FileInfo.mk "ui.lua" false) none] ≠
      .ok (restrictedWalk ["ui.lua", "ui.lua"]
        [WalkVisit.mk "root" (FileInfo.mk "root" true) none,
          WalkVisit.mk "root/ui.lua" (FileInfo.mk "ui.lua" false) none]) := by
  refine ⟨by rfl, by rfl, by rfl, ?_⟩
  intro h
  have h' : (["root/ui.lua", "root/ui.lua"] : List String) = ["root/ui.lua"] :=
    Except.ok.inj h
  exact absurd h' (by decide)

set_option maxRecDepth 100000 in
/-- C12 (the code at the failing input): a `TargetFile` value of 101 spaces
followed by `ui.lua` parses to the one name ` ui.lua`, which still holds a
space, because `strings.Replace` is called with the count 100. -/
theorem C12_replace_count_is_bounded :
    init (configOf "./root" (String.mk (List.replicate 101 space ++ "ui.lua".toList))) =
      .ok ⟨"./root", [" ui.lua"]⟩ ∧
    space ∈ " ui.lua".toList := by
  refine ⟨by rfl, by decide⟩

/-- C13: configuration parsing fails exactly when `TargetPath` is missing or
empty or `TargetFile` is missing or empty; the message names `TargetPath` in the
first case and `TargetFile` otherwise; two maps that agree on these two keys
parse alike. -/
theorem C13_required_keys (content : String → Option String) :
    ((∃ p, init (.content content) = .error p) ↔
      (content "TargetPath" = none ∨ content "TargetPath" = some "" ∨
        content "TargetFile" = none ∨ content "TargetFile" = some "")) ∧
    ((content "TargetPath" = none ∨ content "TargetPath" = some "") →
      init (.content content) = .error (.message "不存在名为TargetPath的配置或配置为空")) ∧
    ((∃ p, content "TargetPath" = some p ∧ p ≠ "") →
      (content "TargetFile" = none ∨ content "TargetFile" = some "") →
      init (.content content) = .error (.message "不存在名为TargetFile的配置或配置为空")) ∧
    (∀ content' : String → Option String,
      content' "TargetPath" = content "TargetPath" →
      content' "TargetFile" = content "TargetFile" →
      init (.content content') = init (.content content)) ∧
    "TargetPath".toList <:+: "不存在名为TargetPath的配置或配置为空".toList ∧
    "TargetFile".toList <:+: "不存在名为TargetFile的配置或配置为空".toList := by
  refine ⟨?_, ?_, ?_, ?_, by decide, by decide⟩
  · constructor
    · rintro ⟨e, he⟩
      cases h1 : content "TargetPath" with
      | none => exact Or.inl rfl
      | some p =>
        by_cases hp : p = ""
        · exact Or.inr (Or.inl (by rw [hp]))
        · cases h2 : content "TargetFile" with
          | none => exact Or.inr (Or.inr (Or.inl rfl))
          | some f =>
            by_cases hf : f = ""
            · exact Or.inr (Or.inr (Or.inr (by rw [hf])))
            · rw [init_ok h1 hp h2 hf] at he
              exact Except.noConfusion he
    · intro h
      cases h1 : content "TargetPath" with
      | none => exact ⟨_, init_path_missing h1⟩
      | some p =>
        by_cases hp : p = ""
        · exact ⟨_, init_path_empty (by rw [h1, hp])⟩
        · rcases h with h | h | h | h
          · rw [h1] at h
            exact Option.noConfusion h
          · rw [h1] at h
            exact absurd (Option.some.inj h) hp
          · exact ⟨_, init_file_missing h1 hp h⟩
          · exact ⟨_, init_file_empty h1 hp h⟩
  · rintro (h | h)
    · exact init_path_missing h
    · exact init_path_empty h
  · rintro ⟨p, h1, hp⟩ (h | h)
    · exact init_file_missing h1 hp h
    · exact init_file_empty h1 hp h
  · intro content' e1 e2
    simp only [init, e1, e2]

/-- Witness of C13: a map with `TargetPath` and no `TargetFile`. -/
theorem C13_witness :
    init (.content fun k => if k = "TargetPath" then some "./root" else none) =
      .error (.message "不存在名为TargetFile的配置或配置为空") :=
  (C13_required_keys fun k => if k = "TargetPath" then some "./root" else none).2.2.1
    ⟨"./root", by rfl, by decide⟩ (Or.inl (by rfl))

/-- C14: when the selector returns no file, `main` prints the diagnostic
`找不到指定的文件，请检查配置` and writes no output file, whatever the files on disk
hold, so none is scanned; so does the run on a tree that holds only `notes.txt`
with `TargetFile` set to `ui.lua`. -/
theorem C14_empty_selection :
    (∀ (cfg : Config) (walkOf : String → List WalkVisit) (disk : Disk)
      (create : Except String Unit),
      getTargetFileList cfg.TargetFileList (walkOf cfg.TargetPath) = .ok [] →
      main cfg walkOf disk create =
        ⟨["There are some errors: 找不到指定的文件，请检查配置"], none⟩) ∧
    (∀ (disk : Disk) (create : Except String Unit),
      (run (configOf "./root" "ui.lua")
        (fun _ => [WalkVisit.mk "root" (FileInfo.mk "root" true) none,
          WalkVisit.mk "root/notes.txt" (FileInfo.mk "notes.txt" false) none])
        disk create).effects =
        ⟨["There are some errors: 找不到指定的文件，请检查配置"], none⟩) := by
  constructor
  · intro cfg walkOf disk create h
    simp [main, mainBody, h, Panic.text]
  · intro disk create
    rfl

/-- Witness of C14: a root directory without any file. -/
theorem C14_witness :
    main ⟨"./root", ["ui.lua"]⟩
        (fun _ => [WalkVisit.mk "root" (FileInfo.mk "root" true) none])
        (fun _ => .error "unused") (.ok ()) =
      ⟨["There are some errors: 找不到指定的文件，请检查配置"], none⟩ :=
  C14_empty_selection.1 ⟨"./root", ["ui.lua"]⟩
    (fun _ => [WalkVisit.mk "root" (FileInfo.mk "root" true) none])
    (fun _ => .error "unused") (.ok ()) (by rfl)

/-- C15: `writeToFile` writes each candidate followed by one line feed and
nothing else; for an extraction result, splitting that text on line feed gives
the candidates followed by one empty piece; and on success `main` prints the
number of candidates as `TotalCount`. -/
theorem C15_render_round_trip :
    (∀ E : List (List Char), writeToFile (.ok ()) E = .ok (rendered E)) ∧
    (∀ (disk : Disk) (targetFileList : List String) (E : List (List Char)),
      extractChinese disk targetFileList = .ok E →
      Split (rendered E) nl = E ++ [[]] ∧ (Split (rendered E) nl).dropLast = E ∧
        (Split (rendered E) nl).dropLast.length = E.length) ∧
    (∀ (cfg : Config) (walkOf : String → List WalkVisit) (disk : Disk)
      (files : List String) (E : List (List Char)),
      getTargetFileList cfg.TargetFileList (walkOf cfg.TargetPath) = .ok files →
      files ≠ [] → extractChinese disk files = .ok E →
      main cfg walkOf disk (.ok ()) =
        ⟨["提取完成，TotalCount: " ++ toString E.length], some (rendered E)⟩) := by
  refine ⟨writeToFile_ok, ?_, ?_⟩
  · intro disk targetFileList E hE
    have h := split_rendered E (extractChinese_no_nl hE)
    refine ⟨h, ?_, ?_⟩
    · rw [h, List.dropLast_concat]
    · rw [h, List.dropLast_concat]
  · intro cfg walkOf disk files E hfiles hne hE
    have hlen : ¬ files.length = 0 := fun e => hne (List.length_eq_zero.mp e)
    simp [main, mainBody, hfiles, hlen, hE, writeToFile_ok]

/-- Witness of C15: the extraction of one file with two literals. -/
theorem C15_witness :
    Split (rendered ["\"你好\"".toList, "\"标题\"".toList]) nl =
        ["\"你好\"".toList, "\"标题\"".toList] ++ [[]] ∧
      (Split (rendered ["\"你好\"".toList, "\"标题\"".toList]) nl).dropLast =
        ["\"你好\"".toList, "\"标题\"".toList] ∧
      (Split (rendered ["\"你好\"".toList, "\"标题\"".toList]) nl).dropLast.length =
        ["\"你好\"".toList, "\"标题\"".toList].length :=
  C15_render_round_trip.2.1
    (fun _ => .ok (fileOfLines ["label = \"你好\"".toList, "title = \"标题\"".toList]))
    ["ui.lua"] ["\"你好\"".toList, "\"标题\"".toList] (by rfl)

/-- C16 (as amended): whenever `init` succeeds the exit status is 0, on success
and equally when `main` recovers a fatal error, which it prints; the exit status
is not 0 only when `init` panics. -/
theorem C16_exit_status (file : ConfigFile) (walkOf : String → List WalkVisit)
    (disk : Disk) (create : Except String Unit) :
    (∀ cfg, init file = .ok cfg →
      run file walkOf disk create = ⟨main cfg walkOf disk create, 0⟩) ∧
    (∀ cfg p, init file = .ok cfg → mainBody cfg walkOf disk create = .error p →
      run file walkOf disk create =
        ⟨⟨["There are some errors: " ++ p.text], none⟩, 0⟩) ∧
    (∀ p, init file = .error p → (run file walkOf disk create).exitCode = 2) ∧
    ((run file walkOf disk create).exitCode ≠ 0 ↔ ∃ p, init file = .error p) := by
  refine ⟨?_, ?_, ?_, ?_⟩
  · intro cfg h
    simp [run, h]
  · intro cfg p h hb
    simp [run, h, main, hb]
  · intro p h
    simp [run, h]
  · cases h : init file with
    | error p => simp [run, h]
    | ok cfg => simp [run, h]

/-- Witness of C16: the output file cannot be created. -/
theorem C16_witness :
    run (configOf "./root" "ui.lua")
        (fun _ => [WalkVisit.mk "root/ui.lua" (FileInfo.mk "ui.lua" false) none])
        (fun _ => .ok (fileOfLines ["label = \"你好\"".toList]))
        (.error "open output.txt: permission denied") =
      ⟨⟨["There are some errors: " ++
          (Panic.error "open output.txt: permission denied").text], none⟩, 0⟩ :=
  (C16_exit_status (configOf "./root" "ui.lua")
    (fun _ => [WalkVisit.mk "root/ui.lua" (FileInfo.mk "ui.lua" false) none])
    (fun _ => .ok (fileOfLines ["label = \"你好\"".toList]))
    (.error "open output.txt: permission denied")).2.1
    ⟨"./root", ["ui.lua"]⟩ (.error "open output.txt: permission denied") (by rfl) (by rfl)

/-- Counterexample to C16 as stated: a matched file that cannot be opened is a
fatal error of `main`, printed as such, and the exit status is 0. -/
theorem C16_counterexample :
    run (configOf "./root" "ui.lua")
        (fun _ => [WalkVisit.mk "root/ui.lua" (FileInfo.mk "ui.lua" false) none])
        (fun _ => .error "open root/ui.lua: permission denied") (.ok ()) =
      ⟨⟨["There are some errors: open root/ui.lua: permission denied"], none⟩, 0⟩ := by
  rfl

/-- C17 (the code at the failing input): a file whose second `ReadLine` call
reports an error other than `io.EOF` is read to its end, and `readEachFile`
returns the candidates of the lines before and after the error. -/
theorem C17_read_error_is_skipped :
    readEachFile
        (fun _ => .ok [.line "a = \"你好\"".toList, .failure "read ui.lua: input/output error",
          .line "b = \"标题\"".toList])
        "ui.lua" =
      .ok ["\"你好\"".toList, "\"标题\"".toList] := by
  rfl

/-- C18 (as amended): a line without line feed whose first quote is preceded by
no slash, no number sign and no quote, whose first literal holds `//` and which
has a later literal with a Han rune, is admitted by `zh_line_pattern` and yields
exactly one candidate, from the first quote to the last. -/
theorem C18_slash_inside_first_literal (pre lit gap body post : List Char)
    (hnl : nl ∉ pre ++ dq :: (lit ++ dq :: (gap ++ dq :: (body ++ dq :: post))))
    (hq : dq ∉ pre) (hs : slash ∉ pre) (hn : hash ∉ pre)
    (_hlit : [slash, slash] <:+: lit) (hh : ∃ c ∈ body, isHan c = true)
    (hpost : dq ∉ post) :
    zh_line_pattern.MatchString
        (pre ++ dq :: (lit ++ dq :: (gap ++ dq :: (body ++ dq :: post)))) = true ∧
      scanLine (pre ++ dq :: (lit ++ dq :: (gap ++ dq :: (body ++ dq :: post)))) =
        [dq :: (lit ++ dq :: (gap ++ dq :: (body ++ [dq])))] := by
  have e : pre ++ dq :: (lit ++ dq :: (gap ++ dq :: (body ++ dq :: post))) =
      pre ++ dq :: ((lit ++ dq :: (gap ++ dq :: body)) ++ dq :: post) := by simp
  have hmid : nl ∉ lit ++ dq :: (gap ++ dq :: body) := by
    intro e'
    apply hnl
    rw [e]
    exact List.mem_append_right _ (List.mem_cons_of_mem _ (List.mem_append_left _ e'))
  obtain ⟨c, hc, hcH⟩ := hh
  have hh' : ∃ c ∈ lit ++ dq :: (gap ++ dq :: body), isHan c = true :=
    ⟨c, by simp [hc], hcH⟩
  rw [e]
  refine ⟨matchString_line_exact pre _ post hs hn hmid hh' hpost, ?_⟩
  rw [scanLine_exact pre _ post hq hs hn hmid hh' hpost]
  simp

/-- Witness of C18: the line `url = "a//b" name = "你好"`. -/
theorem C18_witness :
    zh_line_pattern.MatchString
        ("url = ".toList ++ dq :: ("a//b".toList ++ dq :: (" name = ".toList ++
          dq :: ("你好".toList ++ dq :: [])))) = true ∧
      scanLine ("url = ".toList ++ dq :: ("a//b".toList ++ dq :: (" name = ".toList ++
          dq :: ("你好".toList ++ dq :: [])))) =
        [dq :: ("a//b".toList ++ dq :: (" name = ".toList ++ dq :: ("你好".toList ++ [dq])))] :=
  C18_slash_inside_first_literal "url = ".toList "a//b".toList " name = ".toList
    "你好".toList [] (by decide) (by decide) (by decide) (by decide) (by decide)
    (by decide) (by decide)

/-- Counterexample to C18 as stated: the line `url = "a//b" name = "你好"` is
admitted by `zh_line_pattern` and contributes a candidate. -/
theorem C18_counterexample :
    zh_line_pattern.MatchString "url = \"a//b\" name = \"你好\"".toList = true ∧
    scanLine "url = \"a//b\" name = \"你好\"".toList =
      ["\"a//b\" name = \"你好\"".toList] ∧
    scanLine "url = \"a//b\" name = \"你好\"".toList ≠ [] := by
  refine ⟨by decide, by decide, by decide⟩

/-- C19: a line without line feed yields at most one candidate, and any
positive count passed to `FindAllString` gives the same matches as the count
five. -/
theorem C19_at_most_one_candidate (line : List Char) (hnl : nl ∉ line) :
    (scanLine line).length ≤ 1 ∧
      ∀ n, 1 ≤ n → zh_pattern.FindAllString line n = zh_pattern.FindAllString line 5 := by
  have hall : ∀ n, zh_pattern.FindAllString line (n + 1) = zh_pattern.FindAllString line 5 := by
    intro n
    rw [findAllString_line n line hnl, findAllString_line 4 line hnl]
  constructor
  · unfold scanLine
    split
    · rw [findAllString_line 4 line hnl]
      cases findFrom zh_pattern.pieces line with
      | none => simp
      | some m => simp
    · simp
  · intro n hn
    obtain ⟨k, rfl⟩ : ∃ k, n = k + 1 := ⟨n - 1, by omega⟩
    exact hall k

/-- Witness of C19: the six-literal line of the scenario. -/
theorem C19_witness :
    (scanLine "a=\"一\" b=\"二\" c=\"三\" d=\"四\" e=\"五\" f=\"六\"".toList).length ≤ 1 ∧
      ∀ n, 1 ≤ n →
        zh_pattern.FindAllString "a=\"一\" b=\"二\" c=\"三\" d=\"四\" e=\"五\" f=\"六\"".toList n =
          zh_pattern.FindAllString
            "a=\"一\" b=\"二\" c=\"三\" d=\"四\" e=\"五\" f=\"六\"".toList 5 :=
  C19_at_most_one_candidate "a=\"一\" b=\"二\" c=\"三\" d=\"四\" e=\"五\" f=\"六\"".toList
    (by decide)

end ScanChinese
